import Mathlib

/-!
# Verification of the DB48X variable-precision decimal engine and RPL loops

Shallow embedding of the decimal arithmetic (`decimal.cc` / `decimal.h`),
the decimal text parser, and the loop evaluation code (`loops.cc`) of the
DB48X calculator runtime, together with proofs and refutations of the
specification claims about them.

Decimal numbers are modelled as a sign tag (`neg` mirrors the
`ID_neg_decimal` type id), a signed exponent, and the list of base-1000
"kigits", most significant first.  The 10-bit packing of kigits in the
heap is not modelled: `kigit(base, index, value)` followed by
`kigit(base, index)` round-trips every value below 1024, so a list of
naturals is a faithful view of the kigit stream (including the denormal
value 1000 that `decimal::sub` can produce).
-/

namespace DB48X

/-- A decimal object: sign tag, base-10 exponent, base-1000 kigits
(most significant first).  Mirrors the payload described in `decimal.h`. -/
structure Dec where
  neg    : Bool
  exp    : ℤ
  kigits : List ℕ
  deriving Repr, DecidableEq

/-- Value of a kigit list as a mantissa in [0, 1):
`m = Σ kigits[i] * 1000^-(i+1)` (decimal.h: "The mantissa bits represent
a value between 0 and 1, 1 excluded"). -/
def mval : List ℕ → ℚ
  | []      => 0
  | d :: t  => ((d : ℚ) + mval t) / 1000

/-- Numeric value of a decimal object: `±m · 10^exponent`. -/
def value (x : Dec) : ℚ :=
  (if x.neg then -1 else 1) * mval x.kigits * (10 : ℚ) ^ x.exp

/-- Well-formed kigit streams: every kigit is a valid base-1000 digit. -/
def wfL (l : List ℕ) : Prop := ∀ d ∈ l, d < 1000

/-- Well-formed decimal: all kigits are valid base-1000 digits. -/
def wf (x : Dec) : Prop := wfL x.kigits

instance : DecidablePred wfL := fun l => List.decidableBAll _ l

instance (x : Dec) : Decidable (wf x) := List.decidableBAll _ x.kigits

/-- `(Settings.Precision() + 2) / 3`: number of kigits kept for a given
decimal precision (number of kigits in arithmetic result buffers). -/
def psOf (prec : ℕ) : ℕ := (prec + 2) / 3

/-- `while (rs && rb[rs-1] == 0) rs--;` — strip trailing zero kigits. -/
def stripTrailingZeros (l : List ℕ) : List ℕ :=
  ((l.reverse.dropWhile (· == 0))).reverse

/-- `while (rs && *rb == 0) { xe -= 3; rb++; rs--; }` — count of leading
zero kigits that get stripped. -/
def leadZeros (l : List ℕ) : ℕ := (l.takeWhile (· == 0)).length

/-- The kigit list after stripping leading zero kigits. -/
def dropLeadZeros (l : List ℕ) : List ℕ := l.dropWhile (· == 0)

/-!
## The addition loop

`decimal::add` walks result positions `ko = rs-1 .. 0`, adding the kigit
of `x` and the aligned kigit of `y` at that position with a base-1000
carry.  `addChain f n` reproduces this: it produces the carry out of
position 0 together with the digit list for positions `0 .. n-1`, where
`f ko` is the raw (pre-carry) sum contributed at position `ko`.
The carry entering position `ko` comes from positions above `ko`, which
is exactly what the recursion computes.
-/

/-- Base-1000 carry chain: digits `(f 0 + carry-in) % 1000, …` for
positions `0 .. n-1`, plus the carry out of position 0.  Mirrors the
`while (ko-- > 0) { xk += carry; rb[ko] = xk % 1000; carry = xk / 1000; }`
loop of `decimal::add`. -/
def addChain (f : ℕ → ℕ) : ℕ → ℕ × List ℕ
  | 0 => (0, [])
  | n + 1 =>
    let p := addChain (fun i => f (i + 1)) n
    ((f 0 + p.1) / 1000, (f 0 + p.1) % 1000 :: p.2)

/-- The kigit of `x`'s mantissa used at result position `ko`:
`xk = ko < xs ? kigit(xb, ko) : 0`. -/
def xdig (l : List ℕ) (ko : ℕ) : ℕ := l.getD ko 0

/-- The aligned kigit of `y` at result position `ko` in `decimal::add`:
zero below `kshift`; otherwise `kigit(yb, ko-kshift) / hmul` (with the
out-of-range read `yo < ys ? kigit(yb, yo) : 0` giving 0) plus, when
`mod3 ≠ 0`, `ko > kshift` and `yo - 1 < ys`, the spill
`(kigit(yb, ko-kshift-1) % hmul) * lmul`.  In `add` the spill term sits
outside the `yo < ys` test, so it still fires at `yo = ys`
(`ko = kshift + ys`). -/
def ydig (l : List ℕ) (kshift hmul : ℕ) (ko : ℕ) : ℕ :=
  if kshift ≤ ko then
    (l.getD (ko - kshift) 0) / hmul +
      (if hmul ≠ 1 ∧ kshift < ko then (l.getD (ko - kshift - 1) 0 % hmul) * (1000 / hmul)
       else 0)
  else 0

/-- `hmul` from `mod3`: `mod3 == 2 ? 100 : mod3 == 1 ? 10 : 1`. -/
def hmulOf (mod3 : ℕ) : ℕ := if mod3 = 2 then 100 else if mod3 = 1 then 10 else 1

/-- The loop `hmul = 10; expincr = 1; while (carry >= hmul) { hmul *= 10; expincr++; }`
computing the number of decimal digits of the final carry.  `fuel` only
bounds the iteration count (`hmul = 10^expincr` exceeds `carry` after at
most `carry` iterations), it does not alter the result. -/
def expincrLoop (carry : ℕ) : ℕ → ℕ → ℕ → ℕ
  | 0, _, expincr => expincr
  | fuel + 1, hmul, expincr =>
    if carry ≥ hmul then expincrLoop carry fuel (hmul * 10) (expincr + 1)
    else expincr

/-- `expincr` for a given final carry (≥ 1): result of the carry-digit
counting loop of `decimal::add`. -/
def expincrOf (carry : ℕ) : ℕ := expincrLoop carry (carry + 1) 10 1

/-- The decimal right shift of the mantissa used to renormalise a final
carry in `decimal::add`:
`rb[ko] = rb[ko] / hmul + (above % hmul) * lmul` with
`above = ko ? rb[ko-1] : carry` (all positions read old values). -/
def shiftRightDigits (carry hmul : ℕ) (rb : List ℕ) : List ℕ :=
  (rb.zip (carry :: rb)).map
    (fun p => p.1 / hmul + (p.2 % hmul) * (1000 / hmul))

/-- `decimal::add` for the case `x.exp ≥ y.exp` (the function swaps its
arguments first to ensure this).  `ty` is the result type id, read from
the original `x` before the swap. -/
def addAligned (prec : ℕ) (ty : Bool) (x y : Dec) : Dec :=
  let xe := x.exp
  let ye := y.exp
  let xs := x.kigits.length
  let ys := y.kigits.length
  let yshift := (xe - ye).toNat
  let kshift := yshift / 3
  let mod3 := yshift % 3
  let ps := psOf prec
  let rs := min ps (max xs (ys + (yshift + 2) / 3))
  if rs < kshift then
    x
  else
    let hmul := hmulOf mod3
    let f : ℕ → ℕ := fun ko => xdig x.kigits ko + ydig y.kigits kshift hmul ko
    let cd := addChain f rs
    let carry := cd.1
    let rb := cd.2
    if carry ≠ 0 then
      let expincr := expincrOf carry
      let hm := 10 ^ expincr
      let rb2 := shiftRightDigits carry hm rb
      ⟨ty, xe + expincr, stripTrailingZeros rb2⟩
    else
      ⟨ty, xe, stripTrailingZeros rb⟩

/-- `decimal::add`: addition of two numbers with the same sign.
Swaps the operands so the smaller exponent is in `y`; when `y` is
negligible (`rs < kshift`) the with-larger-exponent operand is returned
unchanged. -/
def add (prec : ℕ) (x y : Dec) : Dec :=
  if x.exp < y.exp then addAligned prec x.neg y x
  else addAligned prec x.neg x y

/-!
## The subtraction loop

`decimal::sub` computes the base-1000 borrow chain
`carry = xk < yk; if carry xk += 1000; rb[ko] = xk - yk;`, then, if a
borrow leaves the top, complements the kigit stream (`rev = 1000` for
the lowest position, `999` above) and flips the sign; finally it strips
leading zero kigits three digits at a time, up to two leading zero
decimal digits inside the top kigit, and trailing zero kigits.
-/

/-- The aligned kigit of `y` at result position `ko` in `decimal::sub`.
Unlike `decimal::add`, the whole y contribution — the high part
`kigit(yb, yo) / hmul` *and* the `mod3` spill
`kigit(yb, yo-1) % hmul * lmul` — is nested inside `if (yo < ys)`:
`if (yo < ys) { yk += kigit(+yb, yo) / hmul; if (mod3 && ko > kshift && --yo < ys) yk += kigit(+yb, yo) % hmul * lmul; }`,
so at `ko = kshift + ys` the spill of the lowest `y` kigit is dropped
(the inner `--yo < ys` check is then vacuous: inside `yo < ys` with
`ko > kshift` it always holds). -/
def ydigSub (l : List ℕ) (kshift hmul : ℕ) (ko : ℕ) : ℕ :=
  if kshift ≤ ko ∧ ko - kshift < l.length then
    (l.getD (ko - kshift) 0) / hmul +
      (if hmul ≠ 1 ∧ kshift < ko then (l.getD (ko - kshift - 1) 0 % hmul) * (1000 / hmul)
       else 0)
  else 0

/-- Base-1000 borrow chain of `decimal::sub`, positions `0 .. n-1`
(most significant first), returning the borrow out of position 0 and
the raw digit list. -/
def subChain (fx fy : ℕ → ℕ) : ℕ → ℕ × List ℕ
  | 0 => (0, [])
  | n + 1 =>
    let (c, t) := subChain (fun i => fx (i + 1)) (fun i => fy (i + 1)) n
    let xk := fx 0
    let yk := fy 0 + c
    if xk < yk then (1, (1000 + xk - yk) :: t) else (0, (xk - yk) :: t)

/-- The complement loop of `decimal::sub`:
`ko = rs; rev = 1000; while (ko-- > 0) { rb[ko] = rev - rb[ko]; rev = 999; }` —
the least significant kigit is subtracted from 1000, all others from 999.
Note that a trailing raw kigit 0 yields the out-of-range kigit 1000. -/
def complementDigits (l : List ℕ) : List ℕ :=
  (match l.reverse with
   | [] => []
   | d :: t => (1000 - d) :: t.map (fun k => 999 - k)).reverse

/-- The in-place left shift by one or two decimal digits used by
`decimal::sub` and `decimal::mul` to strip up to two leading zero
decimal digits: `rb[ko] = (rb[ko] * hmul + next / lmul) % 1000` where
`next = ko + 1 < rs ? rb[ko+1] : 0` (ascending, reads old values). -/
def shiftLeftDigits (hmul : ℕ) (rb : List ℕ) : List ℕ :=
  (rb.zip (rb.drop 1 ++ [0])).map
    (fun p => (p.1 * hmul + p.2 / (1000 / hmul)) % 1000)

/-- `decimal::sub` for the case `x.exp ≥ y.exp`; computes `|x| - |y|`
with `x`'s type assumed, flipping the type when the subtraction borrows
past the top.  `ty`/`lt0` record the original `x`'s type and whether the
operands were swapped (`lt`). -/
def subAligned (prec : ℕ) (ty : Bool) (lt0 : Bool) (x y : Dec) : Dec :=
  let xe := x.exp
  let xs := x.kigits.length
  let ys := y.kigits.length
  let yshift := (xe - y.exp).toNat
  let kshift := yshift / 3
  let mod3 := yshift % 3
  let ps := psOf prec
  let rs := min ps (max xs (ys + (yshift + 2) / 3))
  if rs < kshift then
    -- `return lt ? neg(y) : decimal_p(x)` — here `x` is the larger operand
    if lt0 then ⟨!x.neg, x.exp, x.kigits⟩ else x
  else
    let hmul := hmulOf mod3
    let fx : ℕ → ℕ := fun ko => xdig x.kigits ko
    let fy : ℕ → ℕ := fun ko => ydigSub y.kigits kshift hmul ko
    let cd := subChain fx fy rs
    let carry := cd.1
    let rb0 := cd.2
    let lt1 := if carry ≠ 0 then !lt0 else lt0
    let rb1 := if carry ≠ 0 then complementDigits rb0 else rb0
    -- strip leading zero kigits three decimal digits at a time
    let zk := leadZeros rb1
    let xe1 := xe - 3 * zk
    let rb2 := dropLeadZeros rb1
    -- strip up to two individual leading zero decimal digits
    let top := rb2.headD 0
    let doShift := rb2 ≠ [] ∧ top < 100
    let xe2 := if rb2 ≠ [] ∧ top < 100 then xe1 - (1 + (if top < 10 then 1 else 0)) else xe1
    let rb3 := if rb2 ≠ [] ∧ top < 100 then
                 shiftLeftDigits (if top < 10 then 100 else 10) rb2
               else rb2
    -- `xe -= 1 + *rb < 10;` parses as `xe -= ((1 + *rb) < 10)`
    let xe3 := if doShift ∧ 1 + rb3.headD 0 < 10 then xe2 - 1 else xe2
    let xe4 := if rb3.length = 0 then 0 else xe3
    let ty1 := if lt1 then !ty else ty
    ⟨ty1, xe4, stripTrailingZeros rb3⟩

/-- `decimal::sub`: magnitude subtraction with `x`'s sign assumed,
swapping so the smaller exponent is in `y`. -/
def sub (prec : ℕ) (x y : Dec) : Dec :=
  if x.exp < y.exp then subAligned prec x.neg true y x
  else subAligned prec x.neg false x y

/-!
## The multiplication loops

`decimal::mul` zeroes an `rs`-kigit buffer, accumulates every cross
product `x_i * y_j` at index `i + j` with base-1000 carry propagation
toward lower indices (index 0 is most significant), collects overflow
past index 0 in `carry`, then renormalises: while `carry` is nonzero the
mantissa is shifted right by one whole kigit, rounding the dropped kigit
half-up into the retained digits, and the exponent is increased by 3.
Finally leading zero kigits, up to two leading zero decimal digits, and
trailing zero kigits are stripped.
-/

/-- The inner carry-propagation loop of `decimal::mul`:
`while (rk) { rk += rb[ri]; rb[ri] = rk % 1000; rk /= 1000; if (ri-- == 0) break; }`
returning the updated buffer and the amount that left past index 0
(added to `carry`). -/
def mulCarry : List ℕ → ℕ → ℕ → List ℕ × ℕ
  | rb, 0, rk =>
    if rk = 0 then (rb, 0)
    else
      let rk1 := rk + rb.getD 0 0
      (rb.set 0 (rk1 % 1000), rk1 / 1000)
  | rb, ri' + 1, rk =>
    if rk = 0 then (rb, 0)
    else
      let rk1 := rk + rb.getD (ri' + 1) 0
      mulCarry (rb.set (ri' + 1) (rk1 % 1000)) ri' (rk1 / 1000)

/-- The inner `for (yi = 0; yi < ys; yi++)` loop of `decimal::mul` for a
fixed `xi`, walking the remaining kigits of `y` (`yrest` is
`y.kigits.drop yi`): accumulates `xk * y_j` at `ri = xi + j`, breaking
once `ri ≥ rs`. -/
def mulYLoop (rs xi xk : ℕ) : List ℕ → ℕ → List ℕ → ℕ → List ℕ × ℕ
  | [], _, rb, carry => (rb, carry)
  | yd :: yt, yi, rb, carry =>
    if xi + yi ≥ rs then (rb, carry)
    else
      let rk := xk * yd
      let rc := mulCarry rb (xi + yi) rk
      mulYLoop rs xi xk yt (yi + 1) rc.1 (carry + rc.2)

/-- The outer `for (xi = 0; xi < xs; xi++)` loop of `decimal::mul`,
walking the kigits of `x`. -/
def mulXLoop (yk : List ℕ) (rs : ℕ) : List ℕ → ℕ → List ℕ → ℕ → List ℕ × ℕ
  | [], _, rb, carry => (rb, carry)
  | xd :: xt, xi, rb, carry =>
    let rc := mulYLoop rs xi xd yk 0 rb carry
    mulXLoop yk rs xt (xi + 1) rc.1 rc.2

/-- The half-up rounding chain of `decimal::mul`'s carry loop:
`while (overflow && ri --> 0) { overflow = ++rb[ri] >= 1000; if (overflow) rb[ri] %= 1000; }`
started with `overflow` true at index `ri`; returns the updated buffer
and the final `overflow` flag. -/
def roundUpChain : List ℕ → ℕ → List ℕ × Bool
  | rb, 0 => (rb, true)
  | rb, ri + 1 =>
    let v := rb.getD ri 0 + 1
    if v ≥ 1000 then roundUpChain (rb.set ri (v % 1000)) ri
    else (rb.set ri v, false)

/-- The `while (carry)` renormalisation loop of `decimal::mul`: each pass
rounds the last kigit half-up into the retained ones, shifts the buffer
right by one kigit inserting `carry % 1000` on top, and bumps the
exponent by 3.  `fuel` only bounds the iteration count (each pass
divides the carry by 1000, so `carry + 1` passes always suffice), it
does not alter the result. -/
def mulCarryLoop (rs : ℕ) : ℕ → List ℕ → ℕ → ℤ → List ℕ × ℤ
  | 0, rb, _, re => (rb, re)
  | fuel + 1, rb, carry, re =>
    if carry = 0 then (rb, re)
    else
      let ov0 : Bool := rb.getD (rs - 1) 0 ≥ 500
      let rc := if ov0 then roundUpChain rb (rs - 1) else (rb, false)
      let carry1 := if rc.2 then carry + 1 else carry
      mulCarryLoop rs fuel ((carry1 % 1000) :: rc.1.take (rs - 1)) (carry1 / 1000) (re + 3)

/-- `decimal::mul`: schoolbook multiplication. -/
def mul (prec : ℕ) (x y : Dec) : Dec :=
  let xe := x.exp
  let ye := y.exp
  let ty : Bool := x.neg ≠ y.neg
  let xs := x.kigits.length
  let ys := y.kigits.length
  let re : ℤ := xe + ye - 3
  let ps := psOf prec
  let rs := min ps (xs + ys + 1)
  let rb0 : List ℕ := List.replicate rs 0
  let ac := mulXLoop y.kigits rs x.kigits 0 rb0 0
  let cl := mulCarryLoop rs (ac.2 + 1) ac.1 ac.2 re
  let rb1 := cl.1
  let re1 := cl.2
  let zk := leadZeros rb1
  let re2 := re1 - 3 * zk
  let rb2 := dropLeadZeros rb1
  let top := rb2.headD 0
  let re3 := if rb2 ≠ [] ∧ top < 100 then re2 - (1 + (if top < 10 then 1 else 0)) else re2
  let rb3 := if rb2 ≠ [] ∧ top < 100 then
               shiftLeftDigits (if top < 10 then 100 else 10) rb2
             else rb2
  ⟨ty, re3, stripTrailingZeros rb3⟩

/-!
## Comparison and tests
-/

/-- First index where the two kigit lists differ, compared up to the
shorter length: the loop
`for (i = 0; i < s; i++) if (int diff = kigit(xb,i) - kigit(yb,i)) return sign * diff;`
of `decimal::compare`. -/
def lexDiff : List ℕ → List ℕ → ℤ
  | a :: ta, b :: tb => if a ≠ b then (a : ℤ) - b else lexDiff ta tb
  | _, _ => 0

/-- `decimal::compare` (ε = 0): negative / zero / positive result according
to the comparison algorithm.  The identical-pointer and nullptr cases of
the C function do not arise at the value level. -/
def compare (x y : Dec) : ℤ :=
  if x.neg ≠ y.neg then
    (if x.neg = false then 1 else 0) - (if y.neg = false then 1 else 0)
  else
    let sign : ℤ := if x.neg then -1 else 1
    if x.exp ≠ y.exp then sign * (x.exp - y.exp)
    else if lexDiff x.kigits y.kigits ≠ 0 then sign * lexDiff x.kigits y.kigits
    else sign * ((x.kigits.length : ℤ) - y.kigits.length)

/-- `decimal::is_zero`: the normal zero has no kigits. -/
def is_zero (x : Dec) : Bool := x.kigits.length = 0

/-- The floating-point class values used by `decimal::fpclass` (from the
`class_type` enumeration in decimal.h). -/
inductive FpClass where
  | negativeNormal | negativeSubnormal | negativeZero
  | positiveZero | positiveSubnormal | positiveNormal
  | negativeInfinity | positiveInfinity
  deriving Repr, DecidableEq

/-- `decimal::fpclass` (the `infinity` kigit value is 1005 per the enum
encoding; any kigit ≥ 1000 other than `infinity` falls through to the
subnormal/normal checks exactly as in the C code). -/
def fpclass (x : Dec) : FpClass :=
  let neg := x.neg
  match x.kigits with
  | [] => if neg then .negativeZero else .positiveZero
  | d :: _ =>
    if d ≥ 1000 ∧ d = 1005 then (if neg then .negativeInfinity else .positiveInfinity)
    else if d < 100 then (if neg then .negativeSubnormal else .positiveSubnormal)
    else if neg then .negativeNormal else .positiveNormal

/-- The derived `operator==` on decimals: `decimal::compare(x, y) == 0`. -/
def decEqVal (x y : Dec) : Bool := compare x y = 0

/-- The magnitude-comparison key of `decimal::compare` for operands with
equal sign tags: exponent difference first, then the first differing
kigit, then the kigit-count difference (the factor `sign` excluded). -/
def cmpKey (x y : Dec) : ℤ :=
  if x.exp ≠ y.exp then x.exp - y.exp
  else if lexDiff x.kigits y.kigits ≠ 0 then lexDiff x.kigits y.kigits
  else (x.kigits.length : ℤ) - y.kigits.length

/-!
## Conversion to machine integers

`ularge` is a 64-bit unsigned integer; its arithmetic is modelled on ℕ
with explicit reduction modulo `2^64` wherever C would wrap.
-/

/-- 2^64, the modulus of `ularge` arithmetic. -/
def U64 : ℕ := 2 ^ 64

/-- `~0ULL`, the saturated maximum. -/
def maxU64 : ℕ := U64 - 1

/-- The binary-exponentiation loop of `decimal::as_unsigned`:
`while (xp) { if (xp & 1) pow *= mul; mul = mul * mul; xp /= 2; }`
with 64-bit wrap-around.  `fuel` only bounds the iteration count
(`xp` at least halves each time, so `xp + 1` iterations suffice). -/
def powLoop : ℕ → ℕ → ℕ → ℕ → ℕ
  | 0, _, pow, _ => pow
  | fuel + 1, xp, pow, mul =>
    if xp = 0 then pow
    else
      let pow1 := if xp % 2 = 1 then pow * mul % U64 else pow
      powLoop fuel (xp / 2) pow1 (mul * mul % U64)

/-- The accumulation loop of `decimal::as_unsigned`:
`for (m = 0; m < nkigits && pow; m++) { d = kigit(bp, m); next = result + d * pow / 1000; if (next < result) return ~0ULL; result = next; pow /= 1000; }`. -/
def accLoop (kig : List ℕ) (result pow : ℕ) : ℕ :=
  match kig with
  | [] => result
  | d :: t =>
    if pow = 0 then result
    else
      let next := (result + d * pow % U64 / 1000) % U64
      if next < result then maxU64
      else accLoop t next (pow / 1000)

/-- `decimal::as_unsigned`: conversion to a 64-bit unsigned value;
negative values yield 0 unless `magnitude` is set; exponent ≥ 20 wraps
silently unless `10^exp ≡ 0 (mod 2^64)` (exp ≥ 64), which saturates. -/
def as_unsigned (x : Dec) (magnitude : Bool := false) : ℕ :=
  if x.exp < 0 ∨ (magnitude = false ∧ x.neg = true) then 0
  else
    let xp := x.exp.toNat
    let pow := powLoop (xp + 1) xp 1 10
    if pow = 0 then maxU64
    else accLoop x.kigits 0 pow

/-- Reinterpretation of a 64-bit unsigned value as a signed `large`
(two's complement), used by the cast in `decimal::as_integer`. -/
def toI64 (n : ℕ) : ℤ := if n < 2 ^ 63 then (n : ℤ) else (n : ℤ) - U64

/-- 64-bit two's complement negation of a signed value. -/
def negI64 (n : ℤ) : ℤ := ((-n) + 2 ^ 63).emod U64 - 2 ^ 63

/-- `decimal::as_integer`:
`large result = (large) as_unsigned(true); if (type() == ID_neg_decimal) result = -result;`. -/
def as_integer (x : Dec) : ℤ :=
  let result := toI64 (as_unsigned x true)
  if x.neg then negI64 result else result

/-!
## The decimal text parser (`PARSE_BODY(decimal)`)

The parse context is modelled by the precedence level, the settings the
parser reads (`Precision`, `TooManyDigitsErrors`, `ExponentSeparator`)
and the input as a list of characters (the C source is NUL-terminated,
so reading past the scanned region yields a non-digit character, which
the list end models).  Allocation failures are not modelled (the heap is
assumed large enough), so the `!kigp` and `!p.out` error exits cannot
fire.  The consumed-length output `p.end` is not needed by any claim and
is omitted.
-/

/-- Result of a parser handler: `OK` (with the object built), `SKIP`
(try the next handler), or `ERROR`. -/
inductive PResult where
  | OK (d : Dec)
  | SKIP
  | ERROR
  deriving Repr, DecidableEq

/-- State of the digit-scanning loop of `PARSE_BODY(decimal)`. -/
structure ScanSt where
  kigit      : ℕ
  kigc       : ℕ
  exponent   : ℤ
  decimalDot : Bool
  digits     : ℕ
  zeroes     : Bool
  ks         : List ℕ
  deriving Repr, DecidableEq

/-- Initial scan state. -/
def scanInit : ScanSt := ⟨0, 0, 0, false, 0, true, []⟩

/-- Is this an ASCII digit? -/
def isDig (c : Char) : Bool := '0' ≤ c ∧ c ≤ '9'

/-- The digit/decimal-dot scanning loop of `PARSE_BODY(decimal)`;
returns the unconsumed input and the final state.  A kigit is flushed to
the scratchpad (`ks`) each time three significant digits have been
accumulated; leading zeroes are skipped entirely, adjusting the exponent
when they follow the decimal dot. -/
def scanDigits : List Char → ScanSt → List Char × ScanSt
  | [], st => ([], st)
  | c :: rest, st =>
    if isDig c then
      let d := c.toNat - '0'.toNat
      let st1 := { st with digits := st.digits + 1 }
      if ¬st.zeroes ∨ c ≠ '0' then
        let st2 := if ¬st1.decimalDot then { st1 with exponent := st1.exponent + 1 }
                   else st1
        let k := st2.kigit * 10 + d
        let st3 := if st2.kigc + 1 = 3 then
                     { st2 with ks := st2.ks ++ [k], kigc := 0, kigit := 0,
                                zeroes := false }
                   else
                     { st2 with kigit := k, kigc := st2.kigc + 1, zeroes := false }
        scanDigits rest st3
      else if st1.decimalDot then
        scanDigits rest { st1 with exponent := st1.exponent - 1 }
      else
        scanDigits rest st1
    else if ¬st.decimalDot ∧ (c = '.' ∨ c = ',') then
      scanDigits rest { st with decimalDot := true }
    else (c :: rest, st)

/-- `if (kigc) { while (kigc++ < 3) kigit *= 10; ...append... }` —
flush a final partial kigit, padded with zero digits on the right. -/
def flushPartial (st : ScanSt) : List ℕ :=
  if st.kigc ≠ 0 then st.ks ++ [st.kigit * 10 ^ (3 - st.kigc)] else st.ks

/-- The `while (+s < +last && (*s >= '0' && *s <= '9')) ++s;` scan of
exponent digits, accumulating the value `atoi` will return. -/
def scanExpDigits : List Char → ℕ → ℕ × ℕ × List Char
  | c :: rest, acc =>
    if isDig c then
      let r := scanExpDigits rest (acc * 10 + (c.toNat - '0'.toNat))
      (r.1 + 1, r.2.1, r.2.2)
    else (0, acc, c :: rest)
  | [], acc => (0, acc, [])

/-- `PARSE_BODY(decimal)`: parse a decimal number from text.
`precedence` is the parse context's precedence level; `precision`,
`tooManyErrors` and `expSep` are the settings the parser consults. -/
def object_parse (precedence : ℤ) (precision : ℕ) (tooManyErrors : Bool)
    (expSep : Char) (input : List Char) : PResult :=
  -- Skip leading sign; in an equation `1 + 3` should keep `+` infix
  let sgn : Option Bool :=
    match input with
    | c :: _ => if c = '+' ∨ c = '-' then some (c = '-') else none
    | [] => none
  if sgn.isSome ∧ precedence < 0 then .SKIP
  else
    let neg := sgn.getD false
    let body := if sgn.isSome then input.drop 1 else input
    let scanned := scanDigits body scanInit
    let rem := scanned.1
    let st := scanned.2
    if st.digits = 0 then .SKIP
    else
      let ks := flushPartial st
      if tooManyErrors ∧ st.digits > precision then .ERROR
      else
        -- Check if we were given an exponent
        match rem with
        | c :: rest =>
          if c = 'e' ∨ c = 'E' ∨ c = expSep then
            let negExp : Bool :=
              match rest with
              | d :: _ => d = '-'
              | [] => false
            let rest1 :=
              match rest with
              | d :: r1 => if d = '+' ∨ d = '-' then r1 else rest
              | [] => []
            let scannedExp := scanExpDigits rest1 0
            if scannedExp.1 = 0 then .ERROR
            else
              let expval : ℤ := if negExp then -(scannedExp.2.1 : ℤ)
                                else scannedExp.2.1
              .OK ⟨neg, st.exponent + expval, ks⟩
          else .OK ⟨neg, st.exponent, ks⟩
        | [] => .OK ⟨neg, st.exponent, ks⟩

/-!
## Loops (`loops.cc`)

The runtime state visible to the loop code is modelled by a value stack
of integer objects (`ℤ`; tag `ID_integer` for values ≥ 0, `ID_neg_integer`
otherwise — both satisfy `is_real`), the local-variable slots of the
innermost frame, and the `interrupted` flag.

`interrupted()` itself is not part of the sources; per the spec it is
"a single `interrupted` flag (set by the host on an abort request)
polled between loop iterations", modelled as the `intr` field of the
state, which the host — and hence an arbitrary body evaluation — may
set.

A body evaluation is an arbitrary state transformer returning an
`object::result` status together with the updated state.  Allocation
failures (`integer::make` returning null) are not modelled.  The two
`while` loops can run forever for suitable bodies (e.g. a zero step), so
the embedding takes a fuel parameter; `none` means the fuel ran out.
Each embedded loop additionally counts how many times the body was
evaluated; this instrumentation does not influence the computation.
-/

/-- `object::result`, restricted to the two values the loop code
produces. -/
inductive Res where
  | OK
  | ERR
  deriving Repr, DecidableEq

/-- Runtime state seen by the loop code. -/
structure RT where
  stack  : List ℤ
  locals : List ℤ
  intr   : Bool
  deriving Repr, DecidableEq

/-- `rt.local(0, value)`: store into slot 0 of the innermost frame. -/
def setLocal0 (rt : RT) (v : ℤ) : RT :=
  { rt with locals := rt.locals.set 0 v }

/-- An evaluation of the loop body (or of a condition program):
status plus updated state. -/
def Body := RT → Res × RT

/-- `loop::condition(test)`: pop the top of stack and convert it to a
truth value; error on an empty stack. -/
def popCondition (rt : RT) : Res × RT × Bool :=
  match rt.stack with
  | [] => (.ERR, rt, false)
  | v :: rest => (.OK, { rt with stack := rest }, v ≠ 0)

/-- The integer fast-path `while` loop of `loop::counted`.  Arguments
mirror the C locals: counter `cnt`, bound `last`, increment `incr`
(`ularge`, wrapping modulo 2^64), the `stepping`/`named` flags.
Returns `none` when fuel runs out; otherwise the result status, the
state, the number of body evaluations, and — when a non-integer step
forced the switch to the algebraic loop — the `(step, cnt, last)`
triple for it. -/
def countedIntLoop (body : Body) (stepping named : Bool) :
    ℕ → ℕ → ℕ → ℕ → RT → ℕ → Option (Res × RT × ℕ × Option (ℤ × ℤ × ℤ))
  | 0, _, _, _, _, _ => none
  | fuel + 1, cnt, last, incr, rt, n =>
    if rt.intr then some (.OK, rt, n, none)
    else
      let rt0 := if named then setLocal0 rt cnt else rt
      let r := (body rt0).1
      let rt1 := (body rt0).2
      let n1 := n + 1
      if r ≠ .OK then some (r, rt1, n1, none)
      else
        match stepping, rt1.stack with
        | true, [] => some (.ERR, rt1, n1, none)
        | true, step :: rest =>
          let rt2 := { rt1 with stack := rest }
          if 0 ≤ step then
            -- ID_integer: stay on the fast path
            let incr1 := step.toNat
            let cnt1 := (cnt + incr1) % U64
            if cnt1 > last then some (.OK, rt2, n1, none)
            else countedIntLoop body stepping named fuel cnt1 last incr1 rt2 n1
          else
            -- ID_neg_integer: is_real, switch to the algebraic loop
            some (.OK, rt2, n1, some (step, (cnt : ℤ), (last : ℤ)))
        | false, _ =>
          let cnt1 := (cnt + incr) % U64
          if cnt1 > last then some (.OK, rt1, n1, none)
          else countedIntLoop body stepping named fuel cnt1 last incr rt1 n1

/-- The algebraic `while` loop of `loop::counted`, specialised to
integer-valued algebraics (the only values our stack holds; arithmetic
and comparisons on them are exact).  `skip` suppresses the first body
evaluation after a switch from the fast path. -/
def countedAlgLoop (body : Body) (stepping named : Bool) :
    ℕ → ℤ → ℤ → ℤ → Bool → RT → ℕ → Option (Res × RT × ℕ)
  | 0, _, _, _, _, _, _ => none
  | fuel + 1, cnt, last, step, skip, rt, n =>
    if rt.intr then some (.OK, rt, n)
    else
      -- `doBody` is the body-evaluation/step-popping part of the loop
      -- body; the increment-and-test continuation follows each exit of
      -- it that did not return from the function.
      let doBody : Res × RT × ℤ × ℕ × Bool :=
        if skip then (.OK, rt, step, n, true)
        else
          let rt0 := if named then setLocal0 rt cnt else rt
          let r := (body rt0).1
          let rt1 := (body rt0).2
          if r ≠ .OK then (r, rt1, step, n + 1, false)
          else if stepping then
            match rt1.stack with
            | [] => (.ERR, rt1, step, n + 1, false)
            | s :: rest => (.OK, { rt1 with stack := rest }, s, n + 1, true)
          else (.OK, rt1, step, n + 1, true)
      let r := doBody.1
      let rt2 := doBody.2.1
      let step1 := doBody.2.2.1
      let n1 := doBody.2.2.2.1
      let cont := doBody.2.2.2.2
      if ¬cont then some (r, rt2, n1)
      else
        let cnt1 := cnt + step1
        let countdown := stepping ∧ step1 < 0
        let test := if countdown then cnt1 < last else cnt1 > last
        if test then some (.OK, rt2, n1)
        else countedAlgLoop body stepping named fuel cnt1 last step1 false rt2 n1

/-- `loop::counted`: evaluate a counted loop.  Pops `finish` (level 1)
and `start` (level 2); integer (non-negative) operands take the fast
path, other real operands the algebraic path with initial step 1. -/
def counted (body : Body) (stepping : Bool) (named : Bool) (fuel : ℕ)
    (rt : RT) : Option (Res × RT × ℕ) :=
  match rt.stack with
  | finish :: start :: rest =>
    let rt1 : RT := { rt with stack := rest }
    if 0 ≤ start ∧ 0 ≤ finish then
      match countedIntLoop body stepping named fuel start.toNat finish.toNat 1 rt1 0 with
      | none => none
      | some (r, rt2, n, none) => some (r, rt2, n)
      | some (_, rt2, n, some (step, cnt, last)) =>
        -- skip first execution since the fast path already did it
        countedAlgLoop body stepping named fuel cnt last step true rt2 n
    else
      countedAlgLoop body stepping named fuel start last0 1 false rt1 0
  | _ => some (.ERR, rt, 0)
where
  last0 : ℤ := match rt.stack with
    | finish :: _ => finish
    | _ => 0

/-- `EVAL_BODY(StartNext)`: `counted(body, false)` (not stepping, not
named). -/
def startNextEval (body : Body) (fuel : ℕ) (rt : RT) : Option (Res × RT × ℕ) :=
  counted body false false fuel rt

/-- `EVAL_BODY(StartStep)`: `counted(body, true)`. -/
def startStepEval (body : Body) (fuel : ℕ) (rt : RT) : Option (Res × RT × ℕ) :=
  counted body true false fuel rt

/-- `EVAL_BODY(DoUntil)`: body first, then condition; pop a truth value;
exit on true.  The `interrupted()` flag is polled at the top of each
iteration. -/
def doUntilEval (body cond : Body) : ℕ → RT → ℕ → Option (Res × RT × ℕ)
  | 0, _, _ => none
  | fuel + 1, rt, n =>
    if rt.intr then some (.OK, rt, n)
    else
      let (r1, rt1) := body rt
      if r1 ≠ .OK then some (r1, rt1, n + 1)
      else
        let (r2, rt2) := cond rt1
        if r2 ≠ .OK then some (r2, rt2, n + 1)
        else
          let (r3, rt3, test) := popCondition rt2
          if r3 ≠ .OK ∨ test then some (r3, rt3, n + 1)
          else doUntilEval body cond fuel rt3 (n + 1)

/-- `EVAL_BODY(WhileRepeat)`: condition first; pop a truth value; exit
on false; else evaluate the body.  The `interrupted()` flag is polled at
the top of each iteration. -/
def whileRepeatEval (cond body : Body) : ℕ → RT → ℕ → Option (Res × RT × ℕ)
  | 0, _, _ => none
  | fuel + 1, rt, n =>
    if rt.intr then some (.OK, rt, n)
    else
      let (r1, rt1) := cond rt
      if r1 ≠ .OK then some (r1, rt1, n)
      else
        let (r2, rt2, test) := popCondition rt1
        if r2 ≠ .OK ∨ ¬test then some (r2, rt2, n)
        else
          let (r3, rt3) := body rt2
          if r3 ≠ .OK then some (r3, rt3, n + 1)
          else whileRepeatEval cond body fuel rt3 (n + 1)

/-!
## Specification-side definitions

These definitions are used only to *state* properties; they are not
translations of the C code.
-/

/-- Value of the digit stream `f` over positions `0 .. n-1` with base-1000
positional weights `1000^-(i+1)` (specification-side). -/
def sval (f : ℕ → ℕ) : ℕ → ℚ
  | 0 => 0
  | n + 1 => ((f 0 : ℚ) + sval (fun i => f (i + 1)) n) / 1000

/-- Truncation of a non-negative rational to `n` base-1000 fractional
digits (specification-side). -/
def truncK (n : ℕ) (q : ℚ) : ℚ := (⌊q * 1000 ^ n⌋ : ℚ) / 1000 ^ n

/-- The partial cross-product sum that `decimal::mul` accumulates, in
integer units of `1000^-rs`:
`Σ_{i+j < rs} x_i · y_j · 1000^(rs-1-(i+j))` (specification-side). -/
def mulA (xk yk : List ℕ) (rs : ℕ) : ℕ :=
  ((List.range xk.length).map (fun i =>
    ((List.range yk.length).map (fun j =>
      if i + j < rs then xk.getD i 0 * yk.getD j 0 * 1000 ^ (rs - 1 - (i + j))
      else 0)).sum)).sum

/-- Value of a kigit list as a base-1000 integer, most significant digit
first (specification-side). -/
def ival : List ℕ → ℕ
  | [] => 0
  | d :: t => d * 1000 ^ t.length + ival t

/-- The cross products of one `x` kigit against the kigits of `y` that
land below the result width, weighted as in the result buffer
(specification-side). -/
def ysumN (xk xi rs : ℕ) : List ℕ → ℕ → ℕ
  | [], _ => 0
  | yd :: yt, yi =>
    (if xi + yi < rs then xk * yd * 1000 ^ (rs - 1 - (xi + yi)) else 0) +
      ysumN xk xi rs yt (yi + 1)

/-- The double sum of retained cross products, accumulated row by row
(specification-side). -/
def xsumN (yk : List ℕ) (rs : ℕ) : List ℕ → ℕ → ℕ
  | [], _ => 0
  | xd :: xt, xi => ysumN xd xi rs yk 0 + xsumN yk rs xt (xi + 1)

/-- The result width of `decimal::mul`:
`rs = min(prec2kig(precision), xs + ys + 1)`. -/
def mulRS (prec : ℕ) (x y : Dec) : ℕ :=
  min (psOf prec) (x.kigits.length + y.kigits.length + 1)

/-- The half-up rounded mantissa `decimal::mul` keeps when a carry
remains above the top kigit: the high `rs - 1` kigits of `A mod 1000^rs`
rounded half-up, below the carry kigits (specification-side). -/
def mulRound (A rs : ℕ) : ℕ :=
  A / 1000 ^ rs * 1000 ^ (rs - 1) + (A % 1000 ^ rs + 500) / 1000

/-- Generalisation of the aligned-kigit stream used to reason about the
intra-kigit shift: digit `i` of `l` shifted right by `log10 hmul`
decimal digits, with `prev` the digit preceding `l`
(specification-side). -/
def gdig (hmul prev : ℕ) (l : List ℕ) (i : ℕ) : ℕ :=
  (l.getD i 0) / hmul +
    ((if i = 0 then prev else l.getD (i - 1) 0) % hmul) * (1000 / hmul)

/-- The width of the result buffer `decimal::add`/`decimal::sub`
allocate when `a` is the operand with the (weakly) larger exponent:
`rs = min(ps, max(xs, ys + (yshift+2)/3))` (specification-side mirror of
the quantity computed inside the functions). -/
def rsOf (prec : ℕ) (a b : Dec) : ℕ :=
  min (psOf prec) (max a.kigits.length
    (b.kigits.length + ((a.exp - b.exp).toNat + 2) / 3))

/-- The sum of the two mantissas (aligned, `a` carrying the larger
exponent), each truncated to the `rs` kigits of the result buffer
(specification-side). -/
def addTruncSum (prec : ℕ) (a b : Dec) : ℚ :=
  truncK (rsOf prec a b) (mval a.kigits) +
    truncK (rsOf prec a b) (mval b.kigits / 10 ^ (a.exp - b.exp).toNat)

/-- The number of decimal digits the exponent grows by during final
carry renormalisation: 1 when the truncated sum reaches 1, else 0
(specification-side). -/
def addExpIncr (prec : ℕ) (a b : Dec) : ℕ :=
  if addTruncSum prec a b < 1 then 0 else 1

/-- The value the amended addition claim ascribes to `decimal::add` for
operands already ordered by exponent (`a.exp ≥ b.exp`): the truncated
sum `T`, renormalised by one decimal digit when it reaches 1, truncated
once more to the result buffer (specification-side). -/
def addSpecValue (prec : ℕ) (a b : Dec) : ℚ :=
  (if a.neg then (-1 : ℚ) else 1) *
    (truncK (rsOf prec a b) (addTruncSum prec a b / 10 ^ addExpIncr prec a b) *
      (10 : ℚ) ^ (a.exp + (addExpIncr prec a b : ℤ)))

/-- A decimal is normalized in the sense of the spec: valid kigits, the
leading kigit in [100, 999] and a nonzero trailing kigit — unless the
kigit count is 0, which encodes zero (specification-side). -/
def normalized (x : Dec) : Prop :=
  wfL x.kigits ∧ (x.kigits = [] ∨
    (100 ≤ x.kigits.headD 0 ∧ x.kigits.getLast? ≠ some 0))

/-- The trailing kigit, if any, is nonzero (specification-side). -/
def trailingOK (l : List ℕ) : Prop := l = [] ∨ l.getLast? ≠ some 0

instance (l : List ℕ) : Decidable (trailingOK l) := by
  unfold trailingOK; infer_instance

/-- Invariant of the digit-scanning loop of `PARSE_BODY(decimal)`:
at most two digits pending, the pending digits below their radix, the
leading-zero mode empty, and — once significant digits have appeared —
the first flushed (or pending) kigit starts with a nonzero decimal
digit (specification-side). -/
def ScanInv (st : ScanSt) : Prop :=
  st.kigc < 3 ∧ st.kigit < 10 ^ st.kigc ∧
  (st.zeroes = true → st.kigc = 0 ∧ st.ks = []) ∧
  (st.zeroes = false → st.ks = [] → 1 ≤ st.kigc ∧ 10 ^ (st.kigc - 1) ≤ st.kigit) ∧
  (st.ks ≠ [] → 100 ≤ st.ks.headD 0 ∧ st.ks.headD 0 ≤ 999)

instance (x : Dec) : Decidable (normalized x) := by
  unfold normalized; infer_instance

/-!
## Concrete loop bodies for the end-to-end scenarios
-/

/-- The loop body `DUP 1 +`: duplicate the top of stack, push 1, add —
net effect: push `top + 1`.  Errors on an empty stack like the real
commands would. -/
def dupAdd1 : Body := fun rt =>
  match rt.stack with
  | v :: t => (.OK, { rt with stack := (v + 1) :: v :: t })
  | [] => (.ERR, rt)

/-- A loop body whose last action pushes the step value `-2`
(the payload of `« ... -2 STEP »`). -/
def pushNeg2 : Body := fun rt => (.OK, { rt with stack := (-2) :: rt.stack })

/-- A loop body that pushes the integer 1. -/
def pushOne : Body := fun rt => (.OK, { rt with stack := 1 :: rt.stack })

/-!
# Foundational lemmas

Mantissa values, digit streams, truncation.
-/

theorem mval_nil : mval [] = 0 := rfl

theorem mval_cons (d : ℕ) (t : List ℕ) :
    mval (d :: t) = ((d : ℚ) + mval t) / 1000 := rfl

theorem mval_nonneg (l : List ℕ) : 0 ≤ mval l := by
  induction l with
  | nil => simp [mval]
  | cons d t ih =>
    rw [mval_cons]
    exact div_nonneg (add_nonneg (Nat.cast_nonneg d) ih) (by norm_num)

theorem mval_lt_one {l : List ℕ} (h : wfL l) : mval l < 1 := by
  induction l with
  | nil => norm_num [mval]
  | cons d t ih =>
    rw [mval_cons, div_lt_one (by norm_num : (0:ℚ) < 1000)]
    have hd : d < 1000 := h d (List.mem_cons_self d t)
    have ht : mval t < 1 := ih (fun k hk => h k (List.mem_cons_of_mem d hk))
    have : (d : ℚ) ≤ 999 := by exact_mod_cast Nat.lt_succ_iff.mp hd
    linarith

theorem wfL_cons {d : ℕ} {t : List ℕ} (h : wfL (d :: t)) : d < 1000 ∧ wfL t :=
  ⟨h d (List.mem_cons_self d t), fun k hk => h k (List.mem_cons_of_mem d hk)⟩

theorem sval_zero (f : ℕ → ℕ) : sval f 0 = 0 := rfl

theorem sval_succ (f : ℕ → ℕ) (n : ℕ) :
    sval f (n + 1) = ((f 0 : ℚ) + sval (fun i => f (i + 1)) n) / 1000 := rfl

theorem sval_nonneg (f : ℕ → ℕ) (n : ℕ) : 0 ≤ sval f n := by
  induction n generalizing f with
  | zero => simp [sval]
  | succ n ih =>
    rw [sval_succ]
    exact div_nonneg (add_nonneg (Nat.cast_nonneg _) (ih _)) (by norm_num)

theorem sval_lt_one {f : ℕ → ℕ} (h : ∀ i, f i ≤ 999) (n : ℕ) : sval f n < 1 := by
  induction n generalizing f with
  | zero => norm_num [sval]
  | succ n ih =>
    rw [sval_succ, div_lt_one (by norm_num : (0:ℚ) < 1000)]
    have h0 : (f 0 : ℚ) ≤ 999 := by exact_mod_cast h 0
    have ht : sval (fun i => f (i + 1)) n < 1 := ih (fun i => h (i + 1))
    linarith

theorem sval_add (f g : ℕ → ℕ) (n : ℕ) :
    sval (fun i => f i + g i) n = sval f n + sval g n := by
  induction n generalizing f g with
  | zero => simp [sval]
  | succ n ih =>
    simp only [sval_succ, ih]
    push_cast
    ring

theorem sval_congr {f g : ℕ → ℕ} (n : ℕ) (h : ∀ i < n, f i = g i) :
    sval f n = sval g n := by
  induction n generalizing f g with
  | zero => rfl
  | succ n ih =>
    rw [sval_succ, sval_succ, h 0 (Nat.succ_pos n),
      ih (fun i hi => h (i + 1) (Nat.succ_lt_succ hi))]

theorem sval_ext_zero {f : ℕ → ℕ} {N : ℕ} (h : ∀ i, N ≤ i → f i = 0) :
    ∀ {M : ℕ}, N ≤ M → sval f M = sval f N := by
  intro M hM
  induction M generalizing f N with
  | zero =>
    have : N = 0 := Nat.le_zero.mp hM
    simp [this]
  | succ M ih =>
    cases N with
    | zero =>
      have hz : ∀ i, f i = 0 := fun i => h i (Nat.zero_le i)
      rw [sval_zero, sval_succ, hz 0,
        ih (N := 0) (fun i _ => hz (i + 1)) (Nat.zero_le M), sval_zero]
      norm_num
    | succ N =>
      rw [sval_succ, sval_succ,
        ih (fun i hi => h (i + 1) (Nat.succ_le_succ hi)) (Nat.le_of_succ_le_succ hM)]

theorem sval_getD_eq_mval (l : List ℕ) :
    ∀ {n : ℕ}, l.length ≤ n → sval (fun i => l.getD i 0) n = mval l := by
  intro n hn
  induction l generalizing n with
  | nil =>
    rw [mval_nil]
    have : ∀ i, (0:ℕ) ≤ i → ([] : List ℕ).getD i 0 = 0 := by simp
    rw [sval_ext_zero this (Nat.zero_le n), sval_zero]
  | cons d t ih =>
    cases n with
    | zero => exact absurd hn (by simp)
    | succ n =>
      rw [sval_succ, mval_cons]
      have h1 : (fun i => (d :: t).getD (i + 1) 0) = fun i => t.getD i 0 := by
        funext i; simp
      rw [h1]
      have h2 : t.length ≤ n := Nat.le_of_succ_le_succ (by simpa using hn)
      rw [ih h2]
      simp

theorem truncK_def (n : ℕ) (q : ℚ) : truncK n q = (⌊q * 1000 ^ n⌋ : ℚ) / 1000 ^ n := rfl

theorem truncK_zero_arg (n : ℕ) : truncK n 0 = 0 := by
  simp [truncK]

theorem truncK_of_floor_zero {n : ℕ} {q : ℚ} (h0 : 0 ≤ q)
    (h : q * 1000 ^ n < 1) : truncK n q = 0 := by
  rw [truncK]
  have : ⌊q * 1000 ^ n⌋ = 0 := by
    rw [Int.floor_eq_zero_iff]
    constructor
    · positivity
    · simpa using h
  simp [this]

theorem truncK_shift (a : ℕ) (q : ℚ) (n : ℕ) :
    truncK (n + 1) (((a : ℚ) + q) / 1000) = ((a : ℚ) + truncK n q) / 1000 := by
  rw [truncK, truncK]
  have harg : ((a : ℚ) + q) / 1000 * 1000 ^ (n + 1) =
      (((a : ℤ) * 1000 ^ n : ℤ) : ℚ) + q * 1000 ^ n := by
    push_cast
    field_simp
    ring
  rw [harg, Int.floor_int_add]
  have hne : (1000 : ℚ) ^ n ≠ 0 := by positivity
  push_cast
  rw [pow_succ, ← div_div]
  congr 1
  rw [add_div, mul_div_assoc, div_self hne, mul_one]

theorem sval_of_zero {f : ℕ → ℕ} (h : ∀ i, f i = 0) (n : ℕ) : sval f n = 0 := by
  induction n generalizing f with
  | zero => rfl
  | succ n ih =>
    rw [sval_succ, h 0, ih (fun i => h (i + 1))]
    norm_num

/-- Partial digit sums of a bounded stream are truncations of longer
partial sums. -/
theorem sval_trunc {f : ℕ → ℕ} (hb : ∀ i, f i ≤ 999) :
    ∀ {n N : ℕ}, n ≤ N → sval f n = truncK n (sval f N) := by
  intro n
  induction n generalizing f with
  | zero =>
    intro N _
    rw [sval_zero, truncK_of_floor_zero (sval_nonneg f N) (by simpa using sval_lt_one hb N)]
  | succ n ih =>
    intro N hN
    cases N with
    | zero => exact absurd hN (by omega)
    | succ N =>
      rw [sval_succ, sval_succ, truncK_shift,
        ih (fun i => hb (i + 1)) (Nat.le_of_succ_le_succ hN)]

theorem wfL_getD_le {l : List ℕ} (h : wfL l) (i : ℕ) : l.getD i 0 ≤ 999 := by
  by_cases hi : i < l.length
  · rw [List.getD_eq_getElem _ _ hi]
    have hmem : l[i] ∈ l := List.getElem_mem hi
    have := h _ hmem
    omega
  · rw [List.getD_eq_default _ _ (by omega)]
    omega

/-- Truncation leaves a mantissa that already fits in `n` kigits
unchanged. -/
theorem truncK_mval {l : List ℕ} (h : wfL l) {n : ℕ} (hn : l.length ≤ n) :
    truncK n (mval l) = mval l := by
  rw [← sval_getD_eq_mval l hn,
    ← sval_trunc (fun i => wfL_getD_le h i) (le_refl n)]

/-!
## Values of the add/sub digit chains
-/

theorem addChain_spec (f : ℕ → ℕ) (n : ℕ) :
    ((addChain f n).1 : ℚ) + mval (addChain f n).2 = sval f n := by
  induction n generalizing f with
  | zero => simp [addChain, sval, mval]
  | succ n ih =>
    rw [sval_succ, ← ih (fun i => f (i + 1))]
    simp only [addChain, mval_cons]
    set c := (addChain (fun i => f (i + 1)) n).1 with hc
    set t := (addChain (fun i => f (i + 1)) n).2 with ht
    have h1 : ((f 0 + c : ℕ) : ℚ) =
        1000 * (((f 0 + c) / 1000 : ℕ) : ℚ) + (((f 0 + c) % 1000 : ℕ) : ℚ) := by
      exact_mod_cast (Nat.div_add_mod (f 0 + c) 1000).symm
    have h2 : ((f 0 : ℚ) + ((c : ℚ) + mval t)) = ((f 0 + c : ℕ) : ℚ) + mval t := by
      push_cast
      ring
    rw [h2, h1]
    ring

theorem addChain_length (f : ℕ → ℕ) (n : ℕ) : (addChain f n).2.length = n := by
  induction n generalizing f with
  | zero => rfl
  | succ n ih => simp [addChain, ih]

theorem addChain_wf (f : ℕ → ℕ) (n : ℕ) : wfL (addChain f n).2 := by
  induction n generalizing f with
  | zero => intro d hd; simp [addChain] at hd
  | succ n ih =>
    intro d hd
    simp only [addChain, List.mem_cons] at hd
    rcases hd with h | h
    · subst h
      exact Nat.mod_lt _ (by norm_num)
    · exact ih (fun i => f (i + 1)) d h

theorem addChain_carry_le_one {f : ℕ → ℕ} (hb : ∀ i, f i ≤ 1998) (n : ℕ) :
    (addChain f n).1 ≤ 1 := by
  induction n generalizing f with
  | zero => simp [addChain]
  | succ n ih =>
    have hc := ih (fun i => hb (i + 1))
    simp only [addChain]
    have := hb 0
    omega

/-!
## The aligned kigit stream equals the shifted mantissa
-/

theorem sval_shift_zeros {f : ℕ → ℕ} :
    ∀ {k : ℕ}, (∀ i < k, f i = 0) → ∀ n,
      sval f (k + n) = sval (fun i => f (i + k)) n / 1000 ^ k := by
  intro k
  induction k generalizing f with
  | zero =>
    intro _ n
    simp
  | succ k ih =>
    intro h n
    have hkn : k + 1 + n = (k + n) + 1 := by omega
    rw [hkn, sval_succ, h 0 (Nat.succ_pos k),
      ih (f := fun i => f (i + 1)) (fun i hi => h (i + 1) (Nat.succ_lt_succ hi)) n]
    have hfe : (fun i => f (i + k + 1)) = fun i => f (i + (k + 1)) := rfl
    rw [hfe, pow_succ]
    push_cast
    field_simp

theorem gdig_shift (hmul prev d : ℕ) (t : List ℕ) :
    (fun i => gdig hmul prev (d :: t) (i + 1)) = gdig hmul d t := by
  funext i
  cases i with
  | zero => simp [gdig]
  | succ j => simp [gdig]

theorem gdig_sval {hmul : ℕ} (hdvd : hmul ∣ 1000) (hpos : 0 < hmul) :
    ∀ (l : List ℕ) (prev : ℕ) {n : ℕ}, l.length + 1 ≤ n →
      sval (gdig hmul prev l) n =
        ((prev % hmul * (1000 / hmul) : ℕ) : ℚ) / 1000 + mval l / (hmul : ℚ) := by
  intro l
  induction l with
  | nil =>
    intro prev n hn
    have hz : ∀ i, 1 ≤ i → gdig hmul prev [] i = 0 := by
      intro i hi
      cases i with
      | zero => omega
      | succ j => simp [gdig]
    rw [sval_ext_zero hz hn]
    rw [show (1 : ℕ) = 0 + 1 by rfl, sval_succ, sval_zero]
    simp [gdig, mval]
  | cons d t ih =>
    intro prev n hn
    cases n with
    | zero => exact absurd hn (by omega)
    | succ n =>
      rw [sval_succ, gdig_shift, ih d (by simpa using hn)]
      have hdq : (hmul : ℚ) ≠ 0 := by positivity
      have hcast : ((1000 / hmul : ℕ) : ℚ) = 1000 / (hmul : ℚ) :=
        Nat.cast_div hdvd hdq
      have hd : (d : ℚ) = (hmul : ℚ) * ((d / hmul : ℕ) : ℚ) + ((d % hmul : ℕ) : ℚ) := by
        exact_mod_cast (Nat.div_add_mod d hmul).symm
      rw [mval_cons, hd]
      simp only [gdig, List.getD_cons_zero, if_pos rfl]
      push_cast
      rw [hcast]
      field_simp
      ring

theorem ydig_eq_gdig (l : List ℕ) (kshift hmul : ℕ) :
    (fun i => ydig l kshift hmul (i + kshift)) = gdig hmul 0 l := by
  funext i
  cases i with
  | zero =>
    simp [ydig, gdig]
  | succ j =>
    by_cases h1 : hmul = 1
    · subst h1
      simp [ydig, gdig, Nat.mod_one]
    · have hcond : kshift < j + 1 + kshift := by omega
      simp only [ydig, gdig, if_pos (by omega : kshift ≤ j + 1 + kshift),
        Nat.add_sub_cancel, if_neg (by omega : ¬ j + 1 = 0)]
      rw [if_pos ⟨h1, hcond⟩]

theorem ydig_below {l : List ℕ} {kshift hmul ko : ℕ} (h : ko < kshift) :
    ydig l kshift hmul ko = 0 := by
  simp [ydig, Nat.not_le.mpr h]

theorem ydig_beyond {l : List ℕ} {kshift hmul ko : ℕ}
    (h : l.length + kshift + 1 ≤ ko) : ydig l kshift hmul ko = 0 := by
  have h1 : l.length ≤ ko - kshift := by omega
  have h2 : l.length ≤ ko - kshift - 1 := by omega
  simp only [ydig, List.getD_eq_default _ _ h1, List.getD_eq_default _ _ h2]
  split_ifs <;> simp

theorem ydig_bound {l : List ℕ} {hmul : ℕ}
    (hm : hmul = 1 ∨ hmul = 10 ∨ hmul = 100) (hw : wfL l) (kshift ko : ℕ) :
    ydig l kshift hmul ko ≤ 999 := by
  have hb1 := wfL_getD_le hw (ko - kshift)
  have hb2 := wfL_getD_le hw (ko - kshift - 1)
  rcases hm with rfl | rfl | rfl <;>
    simp only [ydig] <;> split_ifs <;> omega

/-- The aligned digit stream of `y` sums to the shifted mantissa. -/
theorem sval_ydig (l : List ℕ) {hmul : ℕ}
    (hm : hmul = 1 ∨ hmul = 10 ∨ hmul = 100) (kshift : ℕ) :
    ∀ {n : ℕ}, l.length + 1 ≤ n →
      sval (ydig l kshift hmul) (kshift + n) =
        mval l / ((1000 : ℚ) ^ kshift * hmul) := by
  intro n hn
  have hdvd : hmul ∣ 1000 := by rcases hm with rfl | rfl | rfl <;> norm_num
  have hpos : 0 < hmul := by rcases hm with rfl | rfl | rfl <;> norm_num
  rw [sval_shift_zeros (fun i hi => ydig_below hi) n, ydig_eq_gdig,
    gdig_sval hdvd hpos l 0 hn]
  simp [div_div, mul_comm]

/-- Any `rs`-digit prefix of the aligned stream is the truncation of the
shifted mantissa. -/
theorem sval_ydig_trunc {l : List ℕ} {hmul : ℕ}
    (hm : hmul = 1 ∨ hmul = 10 ∨ hmul = 100) (hw : wfL l) (kshift rs : ℕ) :
    sval (ydig l kshift hmul) rs =
      truncK rs (mval l / ((1000 : ℚ) ^ kshift * hmul)) := by
  have hbound : ∀ i, ydig l kshift hmul i ≤ 999 := ydig_bound hm hw kshift
  set N := max rs (kshift + (l.length + 1)) with hN
  have h1 : rs ≤ N := le_max_left _ _
  have h2 : kshift + (l.length + 1) ≤ N := le_max_right _ _
  rw [sval_trunc hbound h1]
  congr 1
  have hz : ∀ i, kshift + (l.length + 1) ≤ i → ydig l kshift hmul i = 0 :=
    fun i hi => ydig_beyond (by omega)
  rw [sval_ext_zero hz h2, sval_ydig l hm kshift (le_refl _)]

/-- `1000^(s/3) * hmulOf (s % 3) = 10^s`. -/
theorem pow_align (s : ℕ) :
    (1000 : ℚ) ^ (s / 3) * (hmulOf (s % 3) : ℚ) = 10 ^ s := by
  have h1000 : (1000 : ℚ) = 10 ^ 3 := by norm_num
  have h3 : s % 3 = 0 ∨ s % 3 = 1 ∨ s % 3 = 2 := by omega
  rcases h3 with h | h | h <;> rw [h] <;> norm_num [hmulOf]
  · rw [h1000, ← pow_mul]
    congr 1
    omega
  · rw [h1000, ← pow_mul, ← pow_succ]
    congr 1
    omega
  · rw [h1000, show (100 : ℚ) = 10 ^ 2 by norm_num, ← pow_mul, ← pow_add]
    congr 1
    omega

theorem hmulOf_cases (m : ℕ) :
    hmulOf m = 1 ∨ hmulOf m = 10 ∨ hmulOf m = 100 := by
  unfold hmulOf
  split_ifs <;> simp

theorem sval_getD_trunc {l : List ℕ} (hw : wfL l) (rs : ℕ) :
    sval (fun i => l.getD i 0) rs = truncK rs (mval l) := by
  set N := max rs l.length with hN
  rw [sval_trunc (fun i => wfL_getD_le hw i) (le_max_left rs l.length),
    sval_getD_eq_mval l (le_max_right rs l.length)]

/-!
## Stripping and shifting kigit buffers
-/

theorem stripTrailingZeros_append_zero (l : List ℕ) :
    stripTrailingZeros (l ++ [0]) = stripTrailingZeros l := by
  simp [stripTrailingZeros, List.dropWhile]

theorem stripTrailingZeros_append_ne {l : List ℕ} {d : ℕ} (hd : d ≠ 0) :
    stripTrailingZeros (l ++ [d]) = l ++ [d] := by
  simp [stripTrailingZeros, List.dropWhile, hd]

theorem mval_append_zero (l : List ℕ) : mval (l ++ [0]) = mval l := by
  induction l with
  | nil => simp [mval]
  | cons d t ih => simp [mval_cons, ih]

theorem mval_stripTrailingZeros (l : List ℕ) :
    mval (stripTrailingZeros l) = mval l := by
  induction l using List.reverseRecOn with
  | nil => rfl
  | append_singleton l d ih =>
    by_cases hd : d = 0
    · subst hd
      rw [stripTrailingZeros_append_zero, ih, mval_append_zero]
    · rw [stripTrailingZeros_append_ne hd]

theorem stripTrailingZeros_getLast (l : List ℕ) :
    stripTrailingZeros l = [] ∨ (stripTrailingZeros l).getLast? ≠ some 0 := by
  induction l using List.reverseRecOn with
  | nil => left; rfl
  | append_singleton l d ih =>
    by_cases hd : d = 0
    · subst hd
      rw [stripTrailingZeros_append_zero]
      exact ih
    · right
      rw [stripTrailingZeros_append_ne hd, List.getLast?_concat]
      simpa using hd

theorem stripTrailingZeros_wf {l : List ℕ} (hw : wfL l) :
    wfL (stripTrailingZeros l) := by
  intro d hd
  apply hw
  have : stripTrailingZeros l ⊆ l := by
    intro a ha
    unfold stripTrailingZeros at ha
    rw [List.mem_reverse] at ha
    have := List.dropWhile_subset (p := (· == 0)) (l := l.reverse) ha
    rwa [List.mem_reverse] at this
  exact this hd

theorem shiftRightDigits_cons (c h d : ℕ) (t : List ℕ) :
    shiftRightDigits c h (d :: t) =
      (d / h + (c % h) * (1000 / h)) :: shiftRightDigits d h t := by
  simp [shiftRightDigits]

/-- The one-decimal-digit right shift of `decimal::add` computes the
truncation of `(carry + mantissa) / 10` to the buffer width. -/
theorem shiftRightDigits_mval {rb : List ℕ} (hw : wfL rb) (c : ℕ) :
    mval (shiftRightDigits c 10 rb) =
      truncK rb.length ((((c % 10 : ℕ) : ℚ) + mval rb) / 10) := by
  induction rb generalizing c with
  | nil =>
    rw [show shiftRightDigits c 10 [] = [] from rfl, mval_nil]
    rw [truncK_of_floor_zero]
    · positivity
    · have : (c % 10 : ℕ) < 10 := Nat.mod_lt _ (by norm_num)
      have hc : ((c % 10 : ℕ) : ℚ) < 10 := by exact_mod_cast this
      simp only [List.length_nil, pow_zero, mul_one, add_zero]
      rw [div_lt_one (by norm_num : (0:ℚ) < 10)]
      exact hc
  | cons d t ih =>
    obtain ⟨hd, ht⟩ := wfL_cons hw
    rw [shiftRightDigits_cons, mval_cons, ih ht d]
    have harg : (((c % 10 : ℕ) : ℚ) + mval (d :: t)) / 10 =
        (((d / 10 + c % 10 * (1000 / 10) : ℕ) : ℚ) +
          ((((d % 10 : ℕ) : ℚ) + mval t) / 10)) / 1000 := by
      rw [mval_cons]
      have hdm : (d : ℚ) = 10 * ((d / 10 : ℕ) : ℚ) + ((d % 10 : ℕ) : ℚ) := by
        exact_mod_cast (Nat.div_add_mod d 10).symm
      push_cast
      rw [hdm]
      ring
    rw [harg, List.length_cons, truncK_shift]

theorem shiftRightDigits_length (c h : ℕ) (rb : List ℕ) :
    (shiftRightDigits c h rb).length = rb.length := by
  simp [shiftRightDigits]

theorem expincrOf_one : expincrOf 1 = 1 := rfl

theorem value_mk (b : Bool) (e : ℤ) (l : List ℕ) :
    value ⟨b, e, l⟩ = (if b then (-1 : ℚ) else 1) * mval l * (10 : ℚ) ^ e := rfl

/-!
## The value computed by `decimal::add`
-/

theorem addAligned_value (prec : ℕ) (x y : Dec)
    (hx : wfL x.kigits) (hy : wfL y.kigits) (hle : y.exp ≤ x.exp)
    (hxl : x.kigits.length ≤ psOf prec) (hyl : y.kigits.length ≤ psOf prec) :
    value (addAligned prec x.neg x y) = addSpecValue prec x y := by
  have hshape : addAligned prec x.neg x y =
      if rsOf prec x y < (x.exp - y.exp).toNat / 3 then x
      else
        (let f : ℕ → ℕ := fun ko => xdig x.kigits ko +
           ydig y.kigits ((x.exp - y.exp).toNat / 3)
             (hmulOf ((x.exp - y.exp).toNat % 3)) ko
         let cd := addChain f (rsOf prec x y)
         if cd.1 ≠ 0 then
           ⟨x.neg, x.exp + expincrOf cd.1,
            stripTrailingZeros (shiftRightDigits cd.1 (10 ^ expincrOf cd.1) cd.2)⟩
         else ⟨x.neg, x.exp, stripTrailingZeros cd.2⟩) := rfl
  set yshift := (x.exp - y.exp).toNat with hys
  set kshift := yshift / 3 with hks
  set hmul := hmulOf (yshift % 3) with hhm
  set rs := rsOf prec x y with hrs
  have hm3 : hmul = 1 ∨ hmul = 10 ∨ hmul = 100 := hmulOf_cases _
  have hxle_rs : x.kigits.length ≤ rs := by
    rw [hrs]
    unfold rsOf
    omega
  have hmx1 : mval x.kigits < 1 := mval_lt_one hx
  have hmy0 : 0 ≤ mval y.kigits := mval_nonneg _
  have htx : truncK rs (mval x.kigits) = mval x.kigits := truncK_mval hx hxle_rs
  by_cases hneg : rs < kshift
  · -- y is negligible: the larger operand is returned unchanged
    rw [hshape, if_pos hneg]
    have hzero : truncK rs (mval y.kigits / 10 ^ yshift) = 0 := by
      apply truncK_of_floor_zero (by positivity)
      have h1 : (1000 : ℚ) ^ (rs + 1) ≤ 10 ^ yshift := by
        rw [show (1000 : ℚ) = 10 ^ 3 by norm_num, ← pow_mul]
        exact pow_le_pow_right (by norm_num) (by omega)
      have hmy1 : mval y.kigits < 1 := mval_lt_one hy
      have hq : mval y.kigits / 10 ^ yshift * 1000 ^ rs ≤ mval y.kigits / 1000 := by
        rw [div_mul_eq_mul_div, div_le_div_iff (by positivity) (by norm_num)]
        calc mval y.kigits * 1000 ^ rs * 1000 = mval y.kigits * 1000 ^ (rs + 1) := by
              ring
          _ ≤ mval y.kigits * 10 ^ yshift := by
              exact mul_le_mul_of_nonneg_left h1 hmy0
      exact hq.trans_lt (by rw [div_lt_one (by norm_num)]; linarith)
    have hT : addTruncSum prec x y = mval x.kigits := by
      unfold addTruncSum
      rw [← hrs, ← hys, htx, hzero, add_zero]
    have hi : addExpIncr prec x y = 0 := by
      unfold addExpIncr
      rw [hT, if_pos hmx1]
    unfold addSpecValue
    rw [hT, hi]
    simp only [pow_zero, div_one, Nat.cast_zero, add_zero]
    rw [← hrs, htx, value]
    ring
  · -- main path
    rw [hshape, if_neg hneg]
    set f : ℕ → ℕ := fun ko => xdig x.kigits ko + ydig y.kigits kshift hmul ko
      with hf
    have hfb : ∀ i, f i ≤ 1998 := by
      intro i
      have h1 : xdig x.kigits i ≤ 999 := wfL_getD_le hx i
      have h2 : ydig y.kigits kshift hmul i ≤ 999 := ydig_bound hm3 hy kshift i
      simp only [hf]
      omega
    have hT : ((addChain f rs).1 : ℚ) + mval (addChain f rs).2 =
        addTruncSum prec x y := by
      rw [addChain_spec]
      unfold addTruncSum
      rw [← hrs, ← hys]
      have hsplit : sval f rs = sval (fun i => x.kigits.getD i 0) rs +
          sval (ydig y.kigits kshift hmul) rs := by
        rw [← sval_add]
        rfl
      rw [hsplit, sval_getD_trunc hx, sval_ydig_trunc hm3 hy kshift rs]
      congr 2
      rw [← pow_align yshift, ← hks, ← hhm]
    have hwrb : wfL (addChain f rs).2 := addChain_wf f rs
    have hlrb : (addChain f rs).2.length = rs := addChain_length f rs
    have hcle : (addChain f rs).1 ≤ 1 := addChain_carry_le_one hfb rs
    set c := (addChain f rs).1 with hc
    set rb := (addChain f rs).2 with hrb
    have hmrb1 : mval rb < 1 := mval_lt_one hwrb
    have hmrb0 : 0 ≤ mval rb := mval_nonneg rb
    interval_cases c
    · -- no final carry
      rw [if_neg (by omega)]
      have hT0 : mval rb = addTruncSum prec x y := by
        rw [← hT]
        norm_num
      have hi : addExpIncr prec x y = 0 := by
        unfold addExpIncr
        rw [← hT0, if_pos hmrb1]
      unfold addSpecValue
      rw [hi]
      simp only [pow_zero, div_one, Nat.cast_zero, add_zero]
      rw [value_mk, mval_stripTrailingZeros, ← hrs, ← hT0,
        truncK_mval hwrb (le_of_eq hlrb)]
      ring
    · -- final carry 1: shift right one decimal digit, bump the exponent
      rw [if_pos (by omega)]
      rw [← hc, expincrOf_one, pow_one]
      have hT1 : (1 : ℚ) + mval rb = addTruncSum prec x y := by
        exact_mod_cast hT
      have hi : addExpIncr prec x y = 1 := by
        unfold addExpIncr
        rw [if_neg (by rw [← hT1]; linarith)]
      unfold addSpecValue
      rw [hi]
      rw [value_mk, mval_stripTrailingZeros, shiftRightDigits_mval hwrb 1, hlrb]
      have harg : (((1 % 10 : ℕ) : ℚ) + mval rb) = addTruncSum prec x y := by
        rw [← hT1]
        norm_num
      rw [harg, ← hrs]
      simp only [Nat.cast_one, pow_one]
      ring

/-- C1 (amended): for operands with the same sign tag whose mantissas fit
in the precision, `decimal::add` aligns the smaller-exponent operand,
adds base-1000 digits least-significant-first with carry, strips
trailing zeros, and returns the *truncated* sum: the value equals the
sum of the two mantissas each truncated to the result width `rs`, with a
final carry renormalised by a one-decimal-digit right shift of the
fixed-width buffer (dropping the lowest retained digit) and a matching
exponent increment — as captured by `addSpecValue`. -/
theorem C1_add_value_eq_truncated_sum (prec : ℕ) (x y : Dec)
    (hx : wf x) (hy : wf y) (hsign : x.neg = y.neg)
    (hxl : x.kigits.length ≤ psOf prec) (hyl : y.kigits.length ≤ psOf prec) :
    value (add prec x y) =
      if x.exp < y.exp then addSpecValue prec y x else addSpecValue prec x y := by
  unfold add
  by_cases h : x.exp < y.exp
  · rw [if_pos h, if_pos h, hsign]
    exact addAligned_value prec y x hy hx (le_of_lt h) hyl hxl
  · rw [if_neg h, if_neg h]
    exact addAligned_value prec x y hx hy (le_of_not_lt h) hxl hyl

/-- Witness for C1: `1.2 + 3.4` at precision 24 satisfies the amended
addition theorem. -/
theorem C1_add_value_witness :
    (wf (⟨false, 1, [120]⟩ : Dec) ∧ wf (⟨false, 1, [340]⟩ : Dec) ∧
      (⟨false, 1, [120]⟩ : Dec).kigits.length ≤ psOf 24 ∧
      (⟨false, 1, [340]⟩ : Dec).kigits.length ≤ psOf 24) ∧
    value (add 24 ⟨false, 1, [120]⟩ ⟨false, 1, [340]⟩) =
      if (⟨false, 1, [120]⟩ : Dec).exp < (⟨false, 1, [340]⟩ : Dec).exp then
        addSpecValue 24 ⟨false, 1, [340]⟩ ⟨false, 1, [120]⟩
      else addSpecValue 24 ⟨false, 1, [120]⟩ ⟨false, 1, [340]⟩ :=
  ⟨⟨by decide, by decide, by decide, by decide⟩,
    C1_add_value_eq_truncated_sum 24 ⟨false, 1, [120]⟩ ⟨false, 1, [340]⟩
      (by decide) (by decide) rfl (by decide) (by decide)⟩

/-- C1 counterexample: `0.999 + 0.999` at precision 24 yields `1.99`,
not the exact sum `1.998`, although `1.998` fits comfortably in
`⌈24/3⌉ = 8` kigits with a nonzero trailing kigit: the final-carry
renormalisation drops the lowest decimal digit of the result buffer. -/
theorem C1_add_not_exact_sum :
    add 24 ⟨false, 0, [999]⟩ ⟨false, 0, [999]⟩ = ⟨false, 1, [199]⟩ ∧
    value (⟨false, 1, [199]⟩ : Dec) = 199 / 100 ∧
    value ⟨false, 0, [999]⟩ + value ⟨false, 0, [999]⟩ = 999 / 500 ∧
    (199 / 100 : ℚ) ≠ 999 / 500 ∧
    value (⟨false, 1, [199, 800]⟩ : Dec) = 999 / 500 ∧
    ([199, 800] : List ℕ).length ≤ psOf 24 ∧
    ([199, 800] : List ℕ).getLast? ≠ some 0 := by
  refine ⟨by decide, ?_, ?_, by norm_num, ?_, by decide, by decide⟩ <;>
    norm_num [value, mval]

/-- C2: the code is wrong on `0.1001 - 0.2001`: the complement of the
raw digits `[900, 0]` stores the out-of-range kigit 1000, the
leading-zero shift then collapses the mantissa, and `decimal::sub`
returns (negative) zero instead of `-0.1`. -/
theorem C2_sub_cancellation_bug :
    sub 24 ⟨false, 0, [100, 100]⟩ ⟨false, 0, [200, 100]⟩ = ⟨true, -2, []⟩ ∧
    value (⟨true, -2, []⟩ : Dec) = 0 ∧
    value ⟨false, 0, [100, 100]⟩ - value ⟨false, 0, [200, 100]⟩ = -(1 / 10) := by
  refine ⟨by decide, ?_, ?_⟩ <;> norm_num [value, mval]

/-- C10: `decimal::compare` distinguishes the two encodings of zero:
`compare(+0, -0)` takes the different-type branch and returns `+1`,
although both operands satisfy `is_zero`, have `fpclass`
positiveZero/negativeZero, and represent the value 0 — so the derived
`operator==` reports the two zeros unequal. -/
theorem C10_compare_distinguishes_zeros :
    compare ⟨false, 0, []⟩ ⟨true, 0, []⟩ = 1 ∧
    is_zero ⟨false, 0, []⟩ = true ∧ is_zero ⟨true, 0, []⟩ = true ∧
    fpclass ⟨false, 0, []⟩ = FpClass.positiveZero ∧
    fpclass ⟨true, 0, []⟩ = FpClass.negativeZero ∧
    value ⟨false, 0, []⟩ = 0 ∧ value ⟨true, 0, []⟩ = 0 ∧
    decEqVal ⟨false, 0, []⟩ ⟨true, 0, []⟩ = false := by
  refine ⟨by decide, by decide, by decide, by decide, by decide, ?_, ?_, by decide⟩ <;>
    norm_num [value, mval]

/-- C4 counterexample: `compare(+0, 0.001)` returns `+2` although
`0 < 0.001`: zero is stored with exponent 0, the nonzero operand has
exponent `-2`, and the exponent comparison fires before any zero
check. -/
theorem C4_compare_zero_misorders :
    compare ⟨false, 0, []⟩ ⟨false, -2, [100]⟩ = 2 ∧
    value ⟨false, 0, []⟩ < value ⟨false, -2, [100]⟩ := by
  refine ⟨by decide, ?_⟩
  simp only [value, mval]
  norm_num

/-- C5 counterexample: parsing `"1.100"` yields the kigits `[110, 0]` —
a trailing zero kigit, so the parsed decimal is not normalized. -/
theorem C5_parse_trailing_zero_kigit :
    object_parse 0 24 false 'e' ("1.100".toList) =
      PResult.OK ⟨false, 1, [110, 0]⟩ ∧
    ([110, 0] : List ℕ).getLast? = some 0 ∧
    ¬ normalized ⟨false, 1, [110, 0]⟩ := by
  refine ⟨by decide, by decide, by decide⟩

/-- C6 counterexample: `« 2 1 START ... NEXT »` (start 2, finish 1 — an
empty interval) still evaluates the body exactly once, not zero times:
`loop::counted` runs the body before the first termination test. -/
theorem C6_empty_interval_runs_once :
    startNextEval pushOne 100 ⟨[1, 2], [], false⟩ =
      some (Res.OK, ⟨[1], [], false⟩, 1) ∧ (1 : ℕ) ≠ 0 := by
  exact ⟨by decide, by decide⟩

/-- C8 counterexample: `as_unsigned()` (default `magnitude = false`) on
`-2` returns 0, not `⌊|-2|⌋ = 2`; moreover for `10^20` (exponent 21) the
64-bit overflow goes undetected and a wrapped value is returned instead
of the saturated maximum. -/
theorem C8_as_unsigned_negative_zero :
    as_unsigned ⟨true, 1, [200]⟩ = 0 ∧
    value ⟨true, 1, [200]⟩ = -2 ∧
    (0 : ℕ) ≠ 2 ∧
    as_unsigned ⟨false, 21, [100]⟩ = 200376420520689 ∧
    as_unsigned ⟨false, 21, [100]⟩ ≠ maxU64 := by
  refine ⟨by decide, ?_, by decide, by decide, by decide⟩
  simp only [value, mval]
  norm_num

/-- C9 counterexample: with the interrupted flag set, all three loop
evaluators stop running the body but return the status `OK`, not an
error status — the "interrupted" error of the claim is nowhere raised
by the loop code. -/
theorem C9_interrupted_returns_ok :
    doUntilEval pushOne pushOne 100 ⟨[], [], true⟩ 0 =
      some (Res.OK, ⟨[], [], true⟩, 0) ∧
    whileRepeatEval pushOne pushOne 100 ⟨[], [], true⟩ 0 =
      some (Res.OK, ⟨[], [], true⟩, 0) ∧
    startNextEval pushOne 100 ⟨[5, 1], [], true⟩ =
      some (Res.OK, ⟨[], [], true⟩, 0) ∧
    Res.OK ≠ Res.ERR := by
  exact ⟨by decide, by decide, by decide, by decide⟩

/-- C3 counterexample: at precision 3, `0.701 * 0.801` returns `0.562`,
not the truncation `0.561` of the exact product `0.561501`: the carry
renormalisation rounds the dropped kigit half-up. -/
theorem C3_mul_rounds_up_not_truncate :
    mul 3 ⟨false, 0, [701]⟩ ⟨false, 0, [801]⟩ = ⟨false, 0, [562]⟩ ∧
    value ⟨false, 0, [701]⟩ * value ⟨false, 0, [801]⟩ = 561501 / 1000000 ∧
    truncK (psOf 3) (561501 / 1000000) = 561 / 1000 ∧
    value (⟨false, 0, [562]⟩ : Dec) = 562 / 1000 ∧
    (562 / 1000 : ℚ) ≠ 561 / 1000 := by
  refine ⟨by decide, ?_, ?_, ?_, by norm_num⟩
  · simp only [value, mval]
    norm_num
  · rw [show psOf 3 = 1 from rfl, truncK]
    have h1 : ((561501 : ℚ) / 1000000 * 1000 ^ 1) = ((561 : ℤ) : ℚ) + 501 / 1000 := by
      norm_num
    rw [h1, Int.floor_int_add]
    have h2 : ⌊(501 / 1000 : ℚ)⌋ = 0 := by
      rw [Int.floor_eq_zero_iff, Set.mem_Ico]
      norm_num
    rw [h2]
    norm_num
  · simp only [value, mval]
    norm_num

/-- C9 (amended): all loop evaluators poll the interrupted flag at the
top of each iteration; once the flag is observed set, no (further) body
iteration is executed and the loop returns its current status `OK` —
there is no "interrupted" error status in the loop code itself. -/
theorem C9_interrupted_stops_iterations (body cond : Body) (fuel n : ℕ)
    (rt : RT) (hintr : rt.intr = true) :
    doUntilEval body cond (fuel + 1) rt n = some (Res.OK, rt, n) ∧
    whileRepeatEval cond body (fuel + 1) rt n = some (Res.OK, rt, n) ∧
    (∀ (stepping named : Bool) (finish start : ℤ) (rest : List ℤ),
      rt.stack = finish :: start :: rest →
      counted body stepping named (fuel + 1) rt =
        some (Res.OK, { rt with stack := rest }, 0)) := by
  refine ⟨?_, ?_, ?_⟩
  · simp [doUntilEval, hintr]
  · simp [whileRepeatEval, hintr]
  · intro stepping named finish start rest hstack
    have h1 : ({ rt with stack := rest } : RT).intr = true := hintr
    by_cases hnn : 0 ≤ start ∧ 0 ≤ finish
    · simp [counted, hstack, countedIntLoop, h1, hintr, hnn]
    · simp [counted, hstack, countedAlgLoop, h1, hintr, hnn]

theorem scanDigits_all_digits (l : List Char) :
    ∀ st : ScanSt, (∀ c ∈ l, isDig c = true) →
      (scanDigits l st).1 = [] ∧
      (scanDigits l st).2.digits = st.digits + l.length := by
  induction l with
  | nil =>
    intro st _
    exact ⟨rfl, by simp [scanDigits]⟩
  | cons c t ih =>
    intro st h
    have hc : isDig c = true := h c (List.mem_cons_self c t)
    have ht : ∀ x ∈ t, isDig x = true := fun x hx => h x (List.mem_cons_of_mem c hx)
    simp only [scanDigits, hc, if_true]
    split_ifs <;>
      (obtain ⟨ha, hb⟩ := ih _ ht
       exact ⟨ha, by rw [hb]; simp [List.length_cons]; try omega⟩)

/-- C7: the numeric parser accepts a leading sign if and only if the
precedence level admits a unary sign: with `p.precedence < 0` any input
starting with `'+'` or `'-'` is SKIPped (so the sign can be an infix
operator); at precedence ≥ 0 a leading `'-'` followed by digits
produces an `ID_neg_decimal` result (with `TooManyDigitsErrors`
disabled so the precision check cannot error). -/
theorem C7_parser_sign_precedence :
    (∀ (c : Char) (cs : List Char) (precedence : ℤ) (precision : ℕ)
        (tme : Bool) (sep : Char), (c = '+' ∨ c = '-') → precedence < 0 →
        object_parse precedence precision tme sep (c :: cs) = PResult.SKIP) ∧
    (∀ (ds : List Char) (precedence : ℤ) (precision : ℕ) (sep : Char),
        0 ≤ precedence → ds ≠ [] → (∀ c ∈ ds, isDig c = true) →
        ∃ d : Dec, object_parse precedence precision false sep ('-' :: ds) =
          PResult.OK d ∧ d.neg = true) := by
  constructor
  · intro c cs precedence precision tme sep hsgn hprec
    rcases hsgn with h | h <;> subst h <;>
      simp [object_parse, hprec]
  · intro ds precedence precision sep hprec hne hdig
    obtain ⟨hrem, hcnt⟩ := scanDigits_all_digits ds scanInit hdig
    have hlen : ds.length ≠ 0 := by simpa using hne
    have hdig0 : ¬((scanDigits ds scanInit).2.digits = 0) := by
      rw [hcnt]
      have h0 : scanInit.digits = 0 := rfl
      omega
    refine ⟨⟨true, (scanDigits ds scanInit).2.exponent,
      flushPartial (scanDigits ds scanInit).2⟩, ?_, rfl⟩
    simp only [object_parse]
    rw [if_neg (by simp; omega)]
    simp only [List.drop_one, List.tail_cons, or_true, if_true,
      Option.isSome_some, Option.getD_some, decide_True]
    rw [if_neg hdig0, if_neg (by simp), hrem]

/-- Witness for C7: `"+1"` at negative precedence is SKIPped; `"-15"`
at precedence 0 parses to a negative decimal. -/
theorem C7_parser_sign_witness :
    object_parse (-1) 24 true 'e' ('+' :: "1".toList) = PResult.SKIP ∧
    (∃ d : Dec, object_parse 0 24 false 'e' ('-' :: "15".toList) =
      PResult.OK d ∧ d.neg = true) :=
  ⟨C7_parser_sign_precedence.1 '+' ("1".toList) (-1) 24 true 'e'
      (Or.inl rfl) (by decide),
    C7_parser_sign_precedence.2 ("15".toList) 0 24 'e'
      (by decide) (by decide) (by decide)⟩

theorem countedIntLoop_count (body : Body) (named : Bool)
    (hb : ∀ s, (body s).1 = Res.OK)
    (hp : ∀ s, s.intr = false → (body s).2.intr = false) :
    ∀ (fuel : ℕ), ∀ (cnt last n : ℕ), ∀ rt : RT, rt.intr = false →
      cnt + 1 < U64 → last + 1 < U64 → last < cnt + fuel → 1 ≤ fuel →
      ∃ rt2 : RT, rt2.intr = false ∧
        countedIntLoop body false named fuel cnt last 1 rt n =
          some (Res.OK, rt2,
            n + (if cnt ≤ last then last + 1 - cnt else 1), none) := by
  intro fuel
  induction fuel with
  | zero =>
    intro _ _ _ _ _ _ _ _ h1
    omega
  | succ fuel ih =>
    intro cnt last n rt hrt hcnt hlast hfuel _
    have hrt0 : (if named then setLocal0 rt cnt else rt).intr = false := by
      cases named <;> simpa [setLocal0]
    have hr := hb (if named then setLocal0 rt cnt else rt)
    have hrt1 : ((body (if named then setLocal0 rt cnt else rt)).2).intr = false :=
      hp _ hrt0
    have hmod : (cnt + 1) % U64 = cnt + 1 := Nat.mod_eq_of_lt hcnt
    by_cases hgt : cnt + 1 > last
    · refine ⟨(body (if named then setLocal0 rt cnt else rt)).2, hrt1, ?_⟩
      have hcount : n + (if cnt ≤ last then last + 1 - cnt else 1) = n + 1 := by
        split_ifs <;> omega
      rw [hcount]
      simp [countedIntLoop, hrt, hr, hmod, hgt]
    · obtain ⟨rt2, h2i, h2e⟩ := ih (cnt + 1) last (n + 1)
        ((body (if named then setLocal0 rt cnt else rt)).2) hrt1
        (by omega) hlast (by omega) (by omega)
      refine ⟨rt2, h2i, ?_⟩
      have hcount : n + 1 + (if cnt + 1 ≤ last then last + 1 - (cnt + 1) else 1) =
          n + (if cnt ≤ last then last + 1 - cnt else 1) := by
        split_ifs <;> omega
      rw [← hcount, ← h2e]
      simp [countedIntLoop, hrt, hr, hmod, hgt]

/-- C6 (amended): a START ... NEXT loop pops start and finish and runs
the body once per integer in [start, finish] with step 1, but at least
once — the body executes before the first termination test, so an empty
interval still runs it exactly once.  `« 1 10 START DUP 1 + NEXT »`
executes the body exactly ten times, and the `« 10 1 START -2 STEP »`
variant pops the step after each body execution and, with the negative
step, stops when the counter goes below finish (five executions). -/
theorem C6_start_next_counting :
    (∀ (body : Body) (named : Bool) (fuel a b : ℕ) (rest locals : List ℤ),
      (∀ s, (body s).1 = Res.OK) →
      (∀ s, s.intr = false → (body s).2.intr = false) →
      a + 1 < U64 → b + 1 < U64 → b < a + fuel → 1 ≤ fuel →
      ∃ rt2 : RT,
        counted body false named fuel ⟨(b : ℤ) :: (a : ℤ) :: rest, locals, false⟩ =
          some (Res.OK, rt2, if a ≤ b then b + 1 - a else 1)) ∧
    startNextEval dupAdd1 100 ⟨[10, 1, 1], [], false⟩ =
      some (Res.OK, ⟨[11, 10, 9, 8, 7, 6, 5, 4, 3, 2, 1], [], false⟩, 10) ∧
    startStepEval pushNeg2 100 ⟨[1, 10], [], false⟩ =
      some (Res.OK, ⟨[], [], false⟩, 5) := by
  refine ⟨?_, by decide, by decide⟩
  intro body named fuel a b rest locals hb hp ha hbb hfuel hf1
  obtain ⟨rt2, _, h2e⟩ := countedIntLoop_count body named hb hp fuel a b 0
    ⟨rest, locals, false⟩ rfl ha hbb hfuel hf1
  refine ⟨rt2, ?_⟩
  simp only [counted]
  rw [if_pos ⟨Int.natCast_nonneg a, Int.natCast_nonneg b⟩]
  simp only [Int.toNat_natCast]
  rw [h2e]
  simp

/-- Witness for C6: `« 1 3 START ... NEXT »` with a body pushing 1 runs
the body three times. -/
theorem C6_start_next_witness :
    ((∀ s, (pushOne s).1 = Res.OK) ∧
      (∀ s : RT, s.intr = false → (pushOne s).2.intr = false) ∧
      (1 : ℕ) + 1 < U64 ∧ (3 : ℕ) + 1 < U64 ∧ (3 : ℕ) < 1 + 10 ∧ (1 : ℕ) ≤ 10) ∧
    ∃ rt2 : RT, counted pushOne false false 10 ⟨[(3 : ℤ), (1 : ℤ)], [], false⟩ =
      some (Res.OK, rt2, if (1 : ℕ) ≤ 3 then 3 + 1 - 1 else 1) :=
  ⟨⟨fun _ => rfl, fun _ h => h, by decide, by decide, by decide, by decide⟩,
    C6_start_next_counting.1 pushOne false 10 1 3 [] []
      (fun _ => rfl) (fun _ h => h) (by decide) (by decide) (by decide) (by decide)⟩

/-- Witness for C9: interrupting an empty-stack do-until loop. -/
theorem C9_interrupted_witness :
    (⟨[(7 : ℤ), 2, 5], [], true⟩ : RT).intr = true ∧
    doUntilEval pushOne pushOne 10 ⟨[7, 2, 5], [], true⟩ 0 =
      some (Res.OK, ⟨[7, 2, 5], [], true⟩, 0) ∧
    whileRepeatEval pushOne pushOne 10 ⟨[7, 2, 5], [], true⟩ 0 =
      some (Res.OK, ⟨[7, 2, 5], [], true⟩, 0) ∧
    counted pushOne true true 10 ⟨[7, 2, 5], [], true⟩ =
      some (Res.OK, ⟨[5], [], true⟩, 0) := by
  have h := C9_interrupted_stops_iterations pushOne pushOne 9 0
    ⟨[7, 2, 5], [], true⟩ rfl
  exact ⟨rfl, h.1, h.2.1, h.2.2 true true 7 2 [5] rfl⟩


/-!
## Normalization of results (claim C5)
-/

theorem isDig_toNat {c : Char} (h : isDig c = true) :
    48 ≤ c.toNat ∧ c.toNat ≤ 57 := by
  simp only [isDig, Bool.decide_and, Bool.and_eq_true, decide_eq_true_eq] at h
  obtain ⟨h1, h2⟩ := h
  exact ⟨h1, h2⟩

theorem toNat_ne_of_ne_zeroChar {c : Char} (h0 : c ≠ '0') : c.toNat ≠ 48 := by
  intro hv
  apply h0
  apply Char.ext
  apply UInt32.ext
  exact hv

theorem scanInv_init : ScanInv scanInit := by
  refine ⟨by norm_num [scanInit], by norm_num [scanInit], by simp [scanInit],
    by simp [scanInit], by simp [scanInit]⟩

theorem scanDigits_inv : ∀ (l : List Char) (st : ScanSt),
    ScanInv st → ScanInv (scanDigits l st).2
  | [], _, h => h
  | c :: rest, st, h => by
    obtain ⟨h1, h2, h3, h4, h5⟩ := h
    simp only [scanDigits]
    split_ifs with hdig hsig hdot hflush hflush2 hzdot hsep
    · -- significant digit, dot already seen, flushing a full kigit
      apply scanDigits_inv rest
      have h0 : '0'.toNat = 48 := rfl
      have hd9 : c.toNat - '0'.toNat ≤ 9 := by
        have := isDig_toNat hdig
        omega
      have hfl : st.kigc + 1 = 3 := hflush
      have hkigc2 : st.kigc = 2 := by omega
      have hz : st.zeroes = false := by
        cases hzc : st.zeroes with
        | false => rfl
        | true => exact absurd ((h3 hzc).1) (by omega)
      refine ⟨by norm_num, by norm_num, by simp, by simp, ?_⟩
      intro _
      show 100 ≤ (st.ks ++ [st.kigit * 10 + (c.toNat - '0'.toNat)]).headD 0 ∧
        (st.ks ++ [st.kigit * 10 + (c.toNat - '0'.toNat)]).headD 0 ≤ 999
      by_cases hks : st.ks = []
      · have h4' := h4 hz hks
        rw [hkigc2] at h4' h2
        norm_num at h4' h2
        rw [hks]
        simp only [List.nil_append, List.headD_cons]
        omega
      · obtain ⟨a, t, ha⟩ := List.exists_cons_of_ne_nil hks
        have h5' := h5 hks
        rw [ha] at h5' ⊢
        simpa using h5'
    · -- significant digit, dot already seen, partial kigit grows
      apply scanDigits_inv rest
      have h0 : '0'.toNat = 48 := rfl
      have hd9 : c.toNat - '0'.toNat ≤ 9 := by
        have := isDig_toNat hdig
        omega
      have hfl : ¬(st.kigc + 1 = 3) := hflush
      refine ⟨by show st.kigc + 1 < 3; omega, ?_, by simp, ?_, by simpa using h5⟩
      · show st.kigit * 10 + (c.toNat - '0'.toNat) < 10 ^ (st.kigc + 1)
        rw [pow_succ]
        omega
      · intro _ hks
        have hks' : st.ks = [] := hks
        refine ⟨by show 1 ≤ st.kigc + 1; omega, ?_⟩
        show 10 ^ (st.kigc + 1 - 1) ≤ st.kigit * 10 + (c.toNat - '0'.toNat)
        simp only [Nat.add_sub_cancel]
        cases hzc : st.zeroes with
        | false =>
          have h4' := h4 hzc hks'
          have hk1 : st.kigc - 1 + 1 = st.kigc := by omega
          calc (10 : ℕ) ^ st.kigc = 10 ^ (st.kigc - 1) * 10 := by
                rw [← pow_succ, hk1]
          _ ≤ st.kigit * 10 := Nat.mul_le_mul_right _ h4'.2
          _ ≤ st.kigit * 10 + (c.toNat - '0'.toNat) := Nat.le_add_right _ _
        | true =>
          have hk0 : st.kigc = 0 := (h3 hzc).1
          have hc0 : c ≠ '0' := by
            rcases hsig with hns | hne
            · exact absurd hzc hns
            · exact hne
          have hge : 48 ≤ c.toNat := (isDig_toNat hdig).1
          have hne48 : c.toNat ≠ 48 := toNat_ne_of_ne_zeroChar hc0
          rw [hk0]
          simp only [pow_zero]
          omega
    · -- significant digit before the dot (exponent bump), flush
      apply scanDigits_inv rest
      have h0 : '0'.toNat = 48 := rfl
      have hd9 : c.toNat - '0'.toNat ≤ 9 := by
        have := isDig_toNat hdig
        omega
      have hfl : st.kigc + 1 = 3 := hflush2
      have hkigc2 : st.kigc = 2 := by omega
      have hz : st.zeroes = false := by
        cases hzc : st.zeroes with
        | false => rfl
        | true => exact absurd ((h3 hzc).1) (by omega)
      refine ⟨by norm_num, by norm_num, by simp, by simp, ?_⟩
      intro _
      show 100 ≤ (st.ks ++ [st.kigit * 10 + (c.toNat - '0'.toNat)]).headD 0 ∧
        (st.ks ++ [st.kigit * 10 + (c.toNat - '0'.toNat)]).headD 0 ≤ 999
      by_cases hks : st.ks = []
      · have h4' := h4 hz hks
        rw [hkigc2] at h4' h2
        norm_num at h4' h2
        rw [hks]
        simp only [List.nil_append, List.headD_cons]
        omega
      · obtain ⟨a, t, ha⟩ := List.exists_cons_of_ne_nil hks
        have h5' := h5 hks
        rw [ha] at h5' ⊢
        simpa using h5'
    · -- significant digit before the dot, partial kigit grows
      apply scanDigits_inv rest
      have h0 : '0'.toNat = 48 := rfl
      have hd9 : c.toNat - '0'.toNat ≤ 9 := by
        have := isDig_toNat hdig
        omega
      have hfl : ¬(st.kigc + 1 = 3) := hflush2
      refine ⟨by show st.kigc + 1 < 3; omega, ?_, by simp, ?_, by simpa using h5⟩
      · show st.kigit * 10 + (c.toNat - '0'.toNat) < 10 ^ (st.kigc + 1)
        rw [pow_succ]
        omega
      · intro _ hks
        have hks' : st.ks = [] := hks
        refine ⟨by show 1 ≤ st.kigc + 1; omega, ?_⟩
        show 10 ^ (st.kigc + 1 - 1) ≤ st.kigit * 10 + (c.toNat - '0'.toNat)
        simp only [Nat.add_sub_cancel]
        cases hzc : st.zeroes with
        | false =>
          have h4' := h4 hzc hks'
          have hk1 : st.kigc - 1 + 1 = st.kigc := by omega
          calc (10 : ℕ) ^ st.kigc = 10 ^ (st.kigc - 1) * 10 := by
                rw [← pow_succ, hk1]
          _ ≤ st.kigit * 10 := Nat.mul_le_mul_right _ h4'.2
          _ ≤ st.kigit * 10 + (c.toNat - '0'.toNat) := Nat.le_add_right _ _
        | true =>
          have hk0 : st.kigc = 0 := (h3 hzc).1
          have hc0 : c ≠ '0' := by
            rcases hsig with hns | hne
            · exact absurd hzc hns
            · exact hne
          have hge : 48 ≤ c.toNat := (isDig_toNat hdig).1
          have hne48 : c.toNat ≠ 48 := toNat_ne_of_ne_zeroChar hc0
          rw [hk0]
          simp only [pow_zero]
          omega
    · -- leading zero after the decimal dot
      exact scanDigits_inv rest _ ⟨h1, h2, h3, h4, h5⟩
    · -- leading zero before the decimal dot
      exact scanDigits_inv rest _ ⟨h1, h2, h3, h4, h5⟩
    · -- decimal dot
      exact scanDigits_inv rest _ ⟨h1, h2, h3, h4, h5⟩
    · -- scan stops
      exact ⟨h1, h2, h3, h4, h5⟩

theorem flushPartial_head {st : ScanSt} (h : ScanInv st)
    (hne : flushPartial st ≠ []) :
    100 ≤ (flushPartial st).headD 0 ∧ (flushPartial st).headD 0 ≤ 999 := by
  obtain ⟨h1, h2, h3, h4, h5⟩ := h
  unfold flushPartial at hne ⊢
  split_ifs at hne ⊢ with hk
  · by_cases hks : st.ks = []
    · have hz : st.zeroes = false := by
        cases hzc : st.zeroes with
        | false => rfl
        | true => exact absurd ((h3 hzc).1) hk
      have h4' := h4 hz hks
      rw [hks]
      simp only [List.nil_append, List.headD_cons]
      have he2 : st.kigc - 1 + (3 - st.kigc) = 2 := by omega
      have he3 : st.kigc + (3 - st.kigc) = 3 := by omega
      constructor
      · calc (100 : ℕ) = 10 ^ (st.kigc - 1) * 10 ^ (3 - st.kigc) := by
              rw [← pow_add, he2]
              norm_num
        _ ≤ st.kigit * 10 ^ (3 - st.kigc) :=
              Nat.mul_le_mul_right _ h4'.2
      · have hub : st.kigit * 10 ^ (3 - st.kigc) ≤
            (10 ^ st.kigc - 1) * 10 ^ (3 - st.kigc) :=
          Nat.mul_le_mul_right _ (by omega)
        have heq : (10 ^ st.kigc - 1) * 10 ^ (3 - st.kigc) =
            1000 - 10 ^ (3 - st.kigc) := by
          rw [Nat.sub_mul, ← pow_add, one_mul, he3]
          norm_num
        have hp : 1 ≤ 10 ^ (3 - st.kigc) := Nat.one_le_pow _ _ (by norm_num)
        calc st.kigit * 10 ^ (3 - st.kigc) ≤ 1000 - 10 ^ (3 - st.kigc) :=
              heq ▸ hub
        _ ≤ 1000 - 1 := Nat.sub_le_sub_left hp 1000
        _ = 999 := rfl
    · obtain ⟨a, t, ha⟩ := List.exists_cons_of_ne_nil hks
      have h5' := h5 hks
      rw [ha] at h5' ⊢
      simpa using h5'
  · exact h5 hne

theorem object_parse_leading_kigit (precedence : ℤ) (precision : ℕ) (tme : Bool)
    (sep : Char) (input : List Char) (d : Dec)
    (hOK : object_parse precedence precision tme sep input = PResult.OK d)
    (hne : d.kigits ≠ []) :
    100 ≤ d.kigits.headD 0 ∧ d.kigits.headD 0 ≤ 999 := by
  simp only [object_parse] at hOK
  split_ifs at hOK
  all_goals symm at hOK
  all_goals split at hOK
  all_goals try split_ifs at hOK
  all_goals cases hOK
  all_goals exact flushPartial_head (scanDigits_inv _ _ scanInv_init) hne

theorem trailingOK_strip (l : List ℕ) : trailingOK (stripTrailingZeros l) :=
  stripTrailingZeros_getLast l

theorem addAligned_trailing (prec : ℕ) (ty : Bool) (x y : Dec)
    (hx : trailingOK x.kigits) :
    trailingOK ((addAligned prec ty x y).kigits) := by
  simp only [addAligned]
  split_ifs <;> first | exact hx | exact trailingOK_strip _

theorem add_trailing (prec : ℕ) (x y : Dec) (hx : trailingOK x.kigits)
    (hy : trailingOK y.kigits) : trailingOK ((add prec x y).kigits) := by
  simp only [add]
  split_ifs with h
  · exact addAligned_trailing _ _ _ _ hy
  · exact addAligned_trailing _ _ _ _ hx

set_option maxHeartbeats 1000000 in
theorem subAligned_trailing (prec : ℕ) (ty lt0 : Bool) (x y : Dec)
    (hx : trailingOK x.kigits) :
    trailingOK ((subAligned prec ty lt0 x y).kigits) := by
  simp only [subAligned]
  split_ifs <;> first | exact hx | exact trailingOK_strip _

theorem sub_trailing (prec : ℕ) (x y : Dec) (hx : trailingOK x.kigits)
    (hy : trailingOK y.kigits) : trailingOK ((sub prec x y).kigits) := by
  simp only [sub]
  split_ifs with h
  · exact subAligned_trailing _ _ _ _ _ hy
  · exact subAligned_trailing _ _ _ _ _ hx

theorem mul_trailing (prec : ℕ) (x y : Dec) :
    trailingOK ((mul prec x y).kigits) := by
  simp only [mul]
  split_ifs <;> exact trailingOK_strip _

/-- C5 (amended): the arithmetic kernels strip trailing zero kigits —
`decimal::add`, `decimal::sub` and `decimal::mul` return a kigit list
whose last kigit is nonzero (or the empty list), provided for add/sub
that the operands themselves carry no trailing zero kigit (their
negligible-operand short-circuit returns an operand verbatim); the
parser `PARSE_BODY(decimal)` guarantees only the leading-kigit half of
the normalization invariant: any nonzero parsed decimal has its first
kigit in [100, 999], while trailing zero kigits may remain. -/
theorem C5_normalization_amended :
    (∀ (prec : ℕ) (x y : Dec), trailingOK x.kigits → trailingOK y.kigits →
      trailingOK ((add prec x y).kigits)) ∧
    (∀ (prec : ℕ) (x y : Dec), trailingOK x.kigits → trailingOK y.kigits →
      trailingOK ((sub prec x y).kigits)) ∧
    (∀ (prec : ℕ) (x y : Dec), trailingOK ((mul prec x y).kigits)) ∧
    (∀ (precedence : ℤ) (precision : ℕ) (tme : Bool) (sep : Char)
      (input : List Char) (d : Dec),
      object_parse precedence precision tme sep input = PResult.OK d →
      d.kigits ≠ [] → 100 ≤ d.kigits.headD 0 ∧ d.kigits.headD 0 ≤ 999) :=
  ⟨fun prec x y hx hy => add_trailing prec x y hx hy,
   fun prec x y hx hy => sub_trailing prec x y hx hy,
   fun prec x y => mul_trailing prec x y,
   fun precedence precision tme sep input d hOK hne =>
     object_parse_leading_kigit precedence precision tme sep input d hOK hne⟩

/-- Witness for C5: `1.2 + 3.4`, `0.5 - 0.2`, `0.5 * 0.2` all yield
nonzero trailing kigits, and `"2.5"` parses with leading kigit 250. -/
theorem C5_normalization_witness :
    trailingOK ((add 24 ⟨false, 1, [120]⟩ ⟨false, 1, [340]⟩).kigits) ∧
    trailingOK ((sub 24 ⟨false, 0, [500]⟩ ⟨false, 0, [200]⟩).kigits) ∧
    trailingOK ((mul 24 ⟨false, 0, [500]⟩ ⟨false, 0, [200]⟩).kigits) ∧
    (100 ≤ ((⟨false, 1, [250]⟩ : Dec)).kigits.headD 0 ∧
      ((⟨false, 1, [250]⟩ : Dec)).kigits.headD 0 ≤ 999) :=
  ⟨C5_normalization_amended.1 24 ⟨false, 1, [120]⟩ ⟨false, 1, [340]⟩
      (by decide) (by decide),
   C5_normalization_amended.2.1 24 ⟨false, 0, [500]⟩ ⟨false, 0, [200]⟩
      (by decide) (by decide),
   C5_normalization_amended.2.2.1 24 ⟨false, 0, [500]⟩ ⟨false, 0, [200]⟩,
   C5_normalization_amended.2.2.2 0 24 false 'e' ("2.5".toList)
      ⟨false, 1, [250]⟩ (by decide) (by decide)⟩


/-!
## Comparison agrees with numerical order (claim C4)
-/

theorem div1000_lt_div1000 {a b : ℚ} (h : a < b) : a / 1000 < b / 1000 := by
  rw [div_lt_div_iff (by norm_num) (by norm_num)]
  linarith

theorem lexDiff_nil_left (b : List ℕ) : lexDiff [] b = 0 := by
  cases b <;> rfl

theorem lexDiff_nil_right (a : List ℕ) : lexDiff a [] = 0 := by
  cases a <;> rfl

theorem lexDiff_swap (a : List ℕ) : ∀ b : List ℕ, lexDiff b a = -lexDiff a b := by
  induction a with
  | nil => intro b; rw [lexDiff_nil_left, lexDiff_nil_right]; rfl
  | cons a0 ta ih =>
    intro b
    cases b with
    | nil => rw [lexDiff_nil_left, lexDiff_nil_right]; rfl
    | cons b0 tb =>
      simp only [lexDiff]
      by_cases h : a0 = b0
      · subst h
        simp [ih tb]
      · rw [if_pos (Ne.symm h), if_pos h]
        ring

theorem mval_pos_of_getLast : ∀ {l : List ℕ}, l ≠ [] → l.getLast? ≠ some 0 →
    0 < mval l
  | [], h, _ => absurd rfl h
  | [d], _, hl => by
    have hd : d ≠ 0 := by simpa using hl
    rw [mval_cons, mval_nil]
    have : (0:ℚ) < d := by exact_mod_cast Nat.pos_of_ne_zero hd
    positivity
  | d :: e :: t, _, hl => by
    have ht := mval_pos_of_getLast (l := e :: t) (by simp)
      (by rwa [List.getLast?_cons_cons] at hl)
    rw [mval_cons]
    have h0 : (0:ℚ) ≤ d := Nat.cast_nonneg d
    positivity

theorem mval_ge_tenth {l : List ℕ} (hne : l ≠ []) (hh : 100 ≤ l.headD 0) :
    1/10 ≤ mval l := by
  cases l with
  | nil => exact absurd rfl hne
  | cons d t =>
    rw [mval_cons]
    have h1 : (100:ℚ) ≤ d := by exact_mod_cast hh
    have h2 : 0 ≤ mval t := mval_nonneg t
    rw [div_le_div_iff (by norm_num : (0:ℚ) < 10) (by norm_num : (0:ℚ) < 1000)]
    linarith

theorem mval_lt_of_lexDiff_neg : ∀ {a b : List ℕ}, wfL a → lexDiff a b < 0 →
    mval a < mval b
  | [], b, _, h => by rw [lexDiff_nil_left] at h; exact absurd h (by norm_num)
  | a0 :: ta, [], _, h => by
    rw [lexDiff_nil_right] at h; exact absurd h (by norm_num)
  | a0 :: ta, b0 :: tb, hw, h => by
    simp only [lexDiff] at h
    by_cases he : a0 = b0
    · subst he
      rw [if_neg (by simp)] at h
      have ih := mval_lt_of_lexDiff_neg (wfL_cons hw).2 h
      rw [mval_cons, mval_cons]
      exact div1000_lt_div1000 (by linarith)
    · rw [if_pos he] at h
      have hab : a0 < b0 := by
        have := sub_neg.mp h
        exact_mod_cast this
      have h1 : mval ta < 1 := mval_lt_one (wfL_cons hw).2
      have h2 : 0 ≤ mval tb := mval_nonneg tb
      rw [mval_cons, mval_cons]
      apply div1000_lt_div1000
      have hb : (a0:ℚ) + 1 ≤ b0 := by exact_mod_cast hab
      linarith

theorem lexDiff_zero_len_eq : ∀ {a b : List ℕ}, lexDiff a b = 0 →
    a.length = b.length → a = b
  | [], [], _, _ => rfl
  | [], _ :: _, _, hl => by simp at hl
  | _ :: _, [], _, hl => by simp at hl
  | a0 :: ta, b0 :: tb, h, hl => by
    simp only [lexDiff] at h
    by_cases he : a0 = b0
    · subst he
      rw [if_neg (by simp)] at h
      rw [lexDiff_zero_len_eq h (by simpa using hl)]
    · rw [if_pos he] at h
      exact absurd (by exact_mod_cast sub_eq_zero.mp h) he

theorem mval_lt_of_lexDiff_zero_short : ∀ {a b : List ℕ}, lexDiff a b = 0 →
    a.length < b.length → b.getLast? ≠ some 0 → mval a < mval b
  | [], b, _, hl, hlast => by
    have hb : b ≠ [] := by intro h'; subst h'; simp at hl
    rw [mval_nil]
    exact mval_pos_of_getLast hb hlast
  | _ :: _, [], _, hl, _ => by simp at hl
  | a0 :: ta, b0 :: tb, h, hl, hlast => by
    simp only [lexDiff] at h
    have htb : tb ≠ [] := by
      intro h'
      subst h'
      simp at hl
    obtain ⟨c, tc, rfl⟩ := List.exists_cons_of_ne_nil htb
    by_cases he : a0 = b0
    · subst he
      rw [if_neg (by simp)] at h
      have ih := mval_lt_of_lexDiff_zero_short h (by simpa using hl)
        (by rwa [List.getLast?_cons_cons] at hlast)
      rw [mval_cons, mval_cons]
      exact div1000_lt_div1000 (by linarith)
    · rw [if_pos he] at h
      exact absurd (by exact_mod_cast sub_eq_zero.mp h) he

theorem mag_lt_of_exp_lt {x y : Dec} (hwx : wfL x.kigits)
    (hy0 : y.kigits ≠ []) (hhy : 100 ≤ y.kigits.headD 0)
    (he : x.exp < y.exp) :
    mval x.kigits * (10:ℚ) ^ x.exp < mval y.kigits * (10:ℚ) ^ y.exp := by
  have hp : (0:ℚ) < (10:ℚ) ^ x.exp := zpow_pos (by norm_num) _
  have hq : (0:ℚ) < (10:ℚ) ^ y.exp := zpow_pos (by norm_num) _
  have h1 : mval x.kigits * (10:ℚ) ^ x.exp < (10:ℚ) ^ x.exp := by
    have := mul_lt_mul_of_pos_right (mval_lt_one hwx) hp
    simpa using this
  have h2 : (10:ℚ) ^ x.exp ≤ (10:ℚ) ^ (y.exp - 1) :=
    zpow_le_zpow_right₀ (by norm_num) (by omega)
  have h3 : (10:ℚ) ^ (y.exp - 1) = (10:ℚ) ^ y.exp / 10 := by
    rw [zpow_sub₀ (by norm_num : (10:ℚ) ≠ 0), zpow_one]
  have h4 : (10:ℚ) ^ y.exp / 10 ≤ mval y.kigits * (10:ℚ) ^ y.exp := by
    have h5 := mval_ge_tenth hy0 hhy
    calc (10:ℚ) ^ y.exp / 10 = (1/10) * (10:ℚ) ^ y.exp := by ring
    _ ≤ mval y.kigits * (10:ℚ) ^ y.exp :=
        mul_le_mul_of_nonneg_right h5 (le_of_lt hq)
  linarith

theorem magKey_lt (a b : Dec) (hwa : wfL a.kigits)
    (hb0 : b.kigits ≠ [])
    (hhb : 100 ≤ b.kigits.headD 0) (hlb : b.kigits.getLast? ≠ some 0)
    (h : cmpKey a b < 0) :
    mval a.kigits * (10:ℚ) ^ a.exp < mval b.kigits * (10:ℚ) ^ b.exp := by
  unfold cmpKey at h
  split_ifs at h with h1 h2
  · exact mag_lt_of_exp_lt hwa hb0 hhb (by omega)
  · have he : a.exp = b.exp := not_ne_iff.mp h1
    rw [he]
    exact mul_lt_mul_of_pos_right (mval_lt_of_lexDiff_neg hwa h)
      (zpow_pos (by norm_num) _)
  · have he : a.exp = b.exp := not_ne_iff.mp h1
    have hl : lexDiff a.kigits b.kigits = 0 := not_ne_iff.mp h2
    have hlen : a.kigits.length < b.kigits.length := by omega
    rw [he]
    exact mul_lt_mul_of_pos_right (mval_lt_of_lexDiff_zero_short hl hlen hlb)
      (zpow_pos (by norm_num) _)

theorem magKey_eq (a b : Dec) (h : cmpKey a b = 0) :
    mval a.kigits * (10:ℚ) ^ a.exp = mval b.kigits * (10:ℚ) ^ b.exp := by
  unfold cmpKey at h
  split_ifs at h with h1 h2
  · omega
  · exact absurd h h2
  · have he : a.exp = b.exp := not_ne_iff.mp h1
    have hl : lexDiff a.kigits b.kigits = 0 := not_ne_iff.mp h2
    have hlen : a.kigits.length = b.kigits.length := by omega
    rw [lexDiff_zero_len_eq hl hlen, he]

theorem magKey_swap (a b : Dec) : cmpKey b a = -cmpKey a b := by
  have hsw := lexDiff_swap a.kigits b.kigits
  unfold cmpKey
  split_ifs <;> omega

theorem compare_eq_key (x y : Dec) (h : x.neg = y.neg) :
    compare x y = (if x.neg then -1 else 1) * cmpKey x y := by
  simp only [DB48X.compare, cmpKey]
  rw [if_neg (by simp [h])]
  split_ifs <;> ring

theorem tri_iff_of (c : ℤ) (u v : ℚ) (h1 : c < 0 → u < v) (h2 : c = 0 → u = v)
    (h3 : 0 < c → v < u) :
    (0 < c ↔ v < u) ∧ (c = 0 ↔ u = v) ∧ (c < 0 ↔ u < v) := by
  refine ⟨⟨h3, ?_⟩, ⟨h2, ?_⟩, ⟨h1, ?_⟩⟩
  · intro hvu
    rcases lt_trichotomy c 0 with h | h | h
    · exact absurd (h1 h) (lt_asymm hvu)
    · exact absurd (h2 h) (ne_of_gt hvu)
    · exact h
  · intro huv
    rcases lt_trichotomy c 0 with h | h | h
    · exact absurd (h1 h) (by rw [huv]; exact lt_irrefl v)
    · exact h
    · exact absurd (h3 h) (by rw [huv]; exact lt_irrefl v)
  · intro huv
    rcases lt_trichotomy c 0 with h | h | h
    · exact h
    · exact absurd (h2 h) (ne_of_lt huv)
    · exact absurd (h3 h) (lt_asymm huv)

/-- C4 (amended): on nonzero normalized operands, the sign of
`decimal::compare` coincides with the numerical order of the values the
operands represent — positive exactly when `x > y`, zero exactly when
`x = y`, negative exactly when `x < y`. -/
theorem C4_compare_agrees_on_nonzero (x y : Dec)
    (hx : normalized x) (hy : normalized y)
    (hx0 : x.kigits ≠ []) (hy0 : y.kigits ≠ []) :
    (0 < compare x y ↔ value y < value x) ∧
    (compare x y = 0 ↔ value x = value y) ∧
    (compare x y < 0 ↔ value x < value y) := by
  obtain ⟨hwx, hnx⟩ := hx
  obtain ⟨hwy, hny⟩ := hy
  rcases hnx with h | ⟨hhx, hlx⟩
  · exact absurd h hx0
  rcases hny with h | ⟨hhy, hly⟩
  · exact absurd h hy0
  have hMx : (0:ℚ) < mval x.kigits * (10:ℚ) ^ x.exp :=
    mul_pos (mval_pos_of_getLast hx0 hlx) (zpow_pos (by norm_num) _)
  have hMy : (0:ℚ) < mval y.kigits * (10:ℚ) ^ y.exp :=
    mul_pos (mval_pos_of_getLast hy0 hly) (zpow_pos (by norm_num) _)
  cases hxn : x.neg with
  | false =>
    cases hyn : y.neg with
    | false =>
      have hc : compare x y = cmpKey x y := by
        rw [compare_eq_key x y (by rw [hxn, hyn]), hxn]
        simp
      have hvx : value x = mval x.kigits * (10:ℚ) ^ x.exp := by
        simp [value, hxn]
      have hvy : value y = mval y.kigits * (10:ℚ) ^ y.exp := by
        simp [value, hyn]
      rw [hc, hvx, hvy]
      apply tri_iff_of
      · intro h
        exact magKey_lt x y hwx hy0 hhy hly h
      · intro h
        exact magKey_eq x y h
      · intro h
        exact magKey_lt y x hwy hx0 hhx hlx (by rw [magKey_swap]; omega)
    | true =>
      have hc : compare x y = 1 := by
        simp [DB48X.compare, hxn, hyn]
      have hvx : value x = mval x.kigits * (10:ℚ) ^ x.exp := by
        simp [value, hxn]
      have hvy : value y = -(mval y.kigits * (10:ℚ) ^ y.exp) := by
        simp [value, hyn]
      rw [hc, hvx, hvy]
      apply tri_iff_of
      · omega
      · omega
      · intro _
        linarith
  | true =>
    cases hyn : y.neg with
    | false =>
      have hc : compare x y = -1 := by
        simp [DB48X.compare, hxn, hyn]
      have hvx : value x = -(mval x.kigits * (10:ℚ) ^ x.exp) := by
        simp [value, hxn]
      have hvy : value y = mval y.kigits * (10:ℚ) ^ y.exp := by
        simp [value, hyn]
      rw [hc, hvx, hvy]
      apply tri_iff_of
      · intro _
        linarith
      · omega
      · omega
    | true =>
      have hc : compare x y = -cmpKey x y := by
        rw [compare_eq_key x y (by rw [hxn, hyn]), hxn]
        simp
      have hvx : value x = -(mval x.kigits * (10:ℚ) ^ x.exp) := by
        simp [value, hxn]
      have hvy : value y = -(mval y.kigits * (10:ℚ) ^ y.exp) := by
        simp [value, hyn]
      rw [hc, hvx, hvy]
      apply tri_iff_of
      · intro h
        have : 0 < cmpKey x y := by omega
        have := magKey_lt y x hwy hx0 hhx hlx (by rw [magKey_swap]; omega)
        linarith
      · intro h
        have := magKey_eq x y (by omega)
        linarith
      · intro h
        have := magKey_lt x y hwx hy0 hhy hly (by omega)
        linarith

/-- Witness for C4: `compare(0.2, 0.1)` orders two concrete nonzero
normalized decimals correctly. -/
theorem C4_compare_witness :
    (0 < compare ⟨false, 0, [200]⟩ ⟨false, 0, [100]⟩ ↔
      value ⟨false, 0, [100]⟩ < value ⟨false, 0, [200]⟩) ∧
    (compare ⟨false, 0, [200]⟩ ⟨false, 0, [100]⟩ = 0 ↔
      value ⟨false, 0, [200]⟩ = value ⟨false, 0, [100]⟩) ∧
    (compare ⟨false, 0, [200]⟩ ⟨false, 0, [100]⟩ < 0 ↔
      value ⟨false, 0, [200]⟩ < value ⟨false, 0, [100]⟩) :=
  C4_compare_agrees_on_nonzero ⟨false, 0, [200]⟩ ⟨false, 0, [100]⟩
    (by decide) (by decide) (by decide) (by decide)


/-!
## Conversions to machine integers (claim C8)
-/

theorem powLoop_spec : ∀ (fuel xp pow mul : ℕ), xp < 2 ^ fuel → pow < U64 →
    powLoop fuel xp pow mul = pow * mul ^ xp % U64
  | 0, xp, pow, mul, hf, hp => by
    have : xp = 0 := by simpa using hf
    subst this
    simp [powLoop, Nat.mod_eq_of_lt hp]
  | fuel + 1, xp, pow, mul, hf, hp => by
    have hU : 0 < U64 := by norm_num [U64]
    have hhalf : xp / 2 < 2 ^ fuel := by
      have h2 : xp < 2 ^ (fuel + 1) := hf
      rw [pow_succ] at h2
      omega
    simp only [powLoop]
    split_ifs with h0 h2
    · subst h0
      simp [Nat.mod_eq_of_lt hp]
    · rw [powLoop_spec fuel (xp / 2) (pow * mul % U64) (mul * mul % U64)
        hhalf (Nat.mod_lt _ hU)]
      have hcong : (pow * mul % U64) * (mul * mul % U64) ^ (xp / 2) ≡
          pow * mul * (mul * mul) ^ (xp / 2) [MOD U64] :=
        Nat.ModEq.mul (Nat.mod_modEq _ _) ((Nat.mod_modEq _ _).pow _)
      have heq : pow * mul * (mul * mul) ^ (xp / 2) = pow * mul ^ xp := by
        rw [← pow_two, ← pow_mul]
        rw [show pow * mul * mul ^ (2 * (xp / 2)) =
          pow * mul ^ (2 * (xp / 2) + 1) by rw [pow_succ]; ring]
        congr 2
        omega
      rw [heq] at hcong
      exact hcong
    · rw [powLoop_spec fuel (xp / 2) pow (mul * mul % U64) hhalf hp]
      have hcong : pow * (mul * mul % U64) ^ (xp / 2) ≡
          pow * (mul * mul) ^ (xp / 2) [MOD U64] :=
        Nat.ModEq.mul (Nat.ModEq.refl _) ((Nat.mod_modEq _ _).pow _)
      have heq : pow * (mul * mul) ^ (xp / 2) = pow * mul ^ xp := by
        rw [← pow_two, ← pow_mul]
        congr 2
        omega
      rw [heq] at hcong
      exact hcong

theorem accLoop_pow_zero (kig : List ℕ) (res : ℕ) : accLoop kig res 0 = res := by
  cases kig <;> simp [accLoop]

theorem floor_small (r d : ℕ) (m : ℚ) (hr : r ≤ 2) (hd : d ≤ 999)
    (hm0 : 0 ≤ m) (hm1 : m < 1) :
    ⌊((d : ℚ) + m) / 1000 * 10 ^ r⌋ = ((d * 10 ^ r / 1000 : ℕ) : ℤ) := by
  have hrem : (d * 10 ^ r) % 1000 + 10 ^ r ≤ 1000 := by
    interval_cases r <;> omega
  have hdm := Nat.div_add_mod (d * 10 ^ r) 1000
  set q := d * 10 ^ r / 1000 with hq
  set rem := (d * 10 ^ r) % 1000 with hrm
  have hpr : (0:ℚ) < 10 ^ r := by positivity
  have hmt : m * (10:ℚ) ^ r < 10 ^ r := by
    nlinarith
  have hmt0 : 0 ≤ m * (10:ℚ) ^ r := mul_nonneg hm0 (le_of_lt hpr)
  have hcast : ((d : ℚ)) * 10 ^ r = 1000 * q + rem := by
    have : ((d * 10 ^ r : ℕ) : ℚ) = ((1000 * q + rem : ℕ) : ℚ) := by
      rw [hdm]
    push_cast at this
    linarith
  have hremq : (rem : ℚ) + 10 ^ r ≤ 1000 := by exact_mod_cast hrem
  rw [Int.floor_eq_iff]
  constructor
  · have : ((d : ℚ) + m) / 1000 * 10 ^ r = ((d:ℚ) * 10 ^ r + m * 10 ^ r) / 1000 := by
      ring
    rw [this, le_div_iff (by norm_num : (0:ℚ) < 1000)]
    push_cast
    linarith
  · have : ((d : ℚ) + m) / 1000 * 10 ^ r = ((d:ℚ) * 10 ^ r + m * 10 ^ r) / 1000 := by
      ring
    rw [this, div_lt_iff (by norm_num : (0:ℚ) < 1000)]
    push_cast
    linarith

theorem accLoop_exact : ∀ (kig : List ℕ), wfL kig → ∀ (res r : ℕ), r ≤ 16 →
    res + 10 ^ r ≤ U64 →
    (accLoop kig res (10 ^ r) : ℤ) = (res : ℤ) + ⌊mval kig * (10:ℚ) ^ r⌋
  | [], _, res, r, _, _ => by
    simp [accLoop, mval_nil]
  | d :: t, hw, res, r, hr, hb => by
    obtain ⟨hd, hwt⟩ := wfL_cons hw
    have hpne : (10:ℕ) ^ r ≠ 0 := by positivity
    rw [accLoop]
    rw [if_neg hpne]
    have hdb : d * 10 ^ r < U64 := by
      calc d * 10 ^ r ≤ 999 * 10 ^ 16 := by
            apply Nat.mul_le_mul (by omega) (Nat.pow_le_pow_right (by norm_num) hr)
      _ < U64 := by norm_num [U64]
    rw [Nat.mod_eq_of_lt hdb]
    by_cases h3 : 3 ≤ r
    · obtain ⟨k, rfl⟩ : ∃ k, r = 3 + k := ⟨r - 3, by omega⟩
      have hdiv : d * 10 ^ (3 + k) / 1000 = d * 10 ^ k := by
        rw [pow_add]
        norm_num
        rw [show d * (1000 * 10 ^ k) = 1000 * (d * 10 ^ k) by ring]
        exact Nat.mul_div_cancel_left _ (by norm_num)
      have hpdiv : (10:ℕ) ^ (3 + k) / 1000 = 10 ^ k := by
        rw [pow_add]
        norm_num
      have hpk : 0 < (10:ℕ) ^ k := pow_pos (by norm_num) k
      have hnb : res + d * 10 ^ k < U64 := by
        have : d * 10 ^ k < 10 ^ (3 + k) := by
          rw [pow_add]
          have hd1 : d < 1000 := by omega
          calc d * 10 ^ k < 1000 * 10 ^ k := (Nat.mul_lt_mul_right hpk).mpr hd1
          _ = 10 ^ 3 * 10 ^ k := by norm_num
        omega
      rw [hdiv]
      rw [Nat.mod_eq_of_lt hnb]
      rw [if_neg (by omega)]
      rw [hpdiv]
      have ih := accLoop_exact t hwt (res + d * 10 ^ k) k (by omega)
        (by
          have : d * 10 ^ k + 10 ^ k ≤ 10 ^ (3 + k) := by
            rw [pow_add]
            have : d + 1 ≤ 1000 := by omega
            calc d * 10 ^ k + 10 ^ k = (d + 1) * 10 ^ k := by ring
            _ ≤ 1000 * 10 ^ k := Nat.mul_le_mul_right _ this
            _ = 10 ^ 3 * 10 ^ k := by norm_num
          omega)
      rw [ih]
      have hfl : ⌊mval (d :: t) * (10:ℚ) ^ (3 + k)⌋ =
          (d * 10 ^ k : ℕ) + ⌊mval t * (10:ℚ) ^ k⌋ := by
        rw [mval_cons]
        have : ((d : ℚ) + mval t) / 1000 * 10 ^ (3 + k) =
            ((d * 10 ^ k : ℕ) : ℚ) + mval t * 10 ^ k := by
          push_cast
          rw [pow_add]
          ring
        rw [this]
        rw [show ((d * 10 ^ k : ℕ) : ℚ) = (((d * 10 ^ k : ℕ) : ℤ) : ℚ) by
          push_cast; ring]
        rw [Int.floor_int_add]
      rw [hfl]
      push_cast
      ring
    · have hr2 : r ≤ 2 := by omega
      have hpr : 0 < (10:ℕ) ^ r := pow_pos (by norm_num) r
      have hq : res + d * 10 ^ r / 1000 < U64 := by
        have hql : d * 10 ^ r / 1000 < 10 ^ r := by
          rw [Nat.div_lt_iff_lt_mul (by norm_num : (0:ℕ) < 1000)]
          have hd1 : d < 1000 := by omega
          calc d * 10 ^ r < 1000 * 10 ^ r := (Nat.mul_lt_mul_right hpr).mpr hd1
          _ = 10 ^ r * 1000 := by ring
        omega
      rw [Nat.mod_eq_of_lt hq]
      rw [if_neg (by omega)]
      have hpz : (10:ℕ) ^ r / 1000 = 0 := by
        apply Nat.div_eq_of_lt
        calc (10:ℕ) ^ r ≤ 10 ^ 2 := Nat.pow_le_pow_right (by norm_num) hr2
        _ < 1000 := by norm_num
      rw [hpz, accLoop_pow_zero]
      have hfl := floor_small r d (mval t) hr2 (by omega)
        (mval_nonneg t) (mval_lt_one hwt)
      rw [mval_cons, hfl]
      push_cast
      ring

theorem pow16_lt_U64 : (10:ℕ) ^ 16 < U64 := by norm_num [U64]

theorem as_unsigned_exact (x : Dec) (hw : wf x) (h0 : 0 ≤ x.exp)
    (h16 : x.exp ≤ 16) :
    (as_unsigned x true : ℤ) = ⌊mval x.kigits * (10:ℚ) ^ x.exp⌋ := by
  have hxp16 : x.exp.toNat ≤ 16 := by omega
  have hlt2 : x.exp.toNat < 2 ^ (x.exp.toNat + 1) := by
    have h := Nat.lt_two_pow x.exp.toNat
    have h2 : (2:ℕ) ^ x.exp.toNat ≤ 2 ^ (x.exp.toNat + 1) :=
      Nat.pow_le_pow_right (by norm_num) (Nat.le_succ _)
    omega
  have hpow : powLoop (x.exp.toNat + 1) x.exp.toNat 1 10 = 10 ^ x.exp.toNat := by
    rw [powLoop_spec (x.exp.toNat + 1) x.exp.toNat 1 10 hlt2 (by norm_num [U64])]
    rw [one_mul, Nat.mod_eq_of_lt]
    calc (10:ℕ) ^ x.exp.toNat ≤ 10 ^ 16 :=
          Nat.pow_le_pow_right (by norm_num) hxp16
    _ < U64 := pow16_lt_U64
  simp only [as_unsigned]
  rw [if_neg (by simp; omega)]
  rw [hpow]
  rw [if_neg (by positivity)]
  have hacc := accLoop_exact x.kigits hw 0 x.exp.toNat hxp16
    (by
      have := pow16_lt_U64
      have : (10:ℕ) ^ x.exp.toNat ≤ 10 ^ 16 :=
        Nat.pow_le_pow_right (by norm_num) hxp16
      omega)
  rw [hacc]
  have hze : ((10:ℚ) ^ x.exp.toNat : ℚ) = (10:ℚ) ^ x.exp := by
    rw [← zpow_natCast]
    congr 1
    omega
  rw [hze]
  simp

theorem abs_value (x : Dec) : |value x| = mval x.kigits * (10:ℚ) ^ x.exp := by
  have h1 : 0 ≤ mval x.kigits * (10:ℚ) ^ x.exp :=
    mul_nonneg (mval_nonneg _) (le_of_lt (zpow_pos (by norm_num) _))
  cases hxn : x.neg
  · rw [value, hxn]
    simp [abs_of_nonneg, h1]
  · rw [value, hxn]
    simp only [if_true]
    rw [show (-1 : ℚ) * mval x.kigits * (10:ℚ) ^ x.exp =
      -(mval x.kigits * (10:ℚ) ^ x.exp) by ring]
    rw [abs_neg, abs_of_nonneg h1]

theorem as_unsigned_lt_2p63 (x : Dec) (hw : wf x) (h0 : 0 ≤ x.exp)
    (h16 : x.exp ≤ 16) : as_unsigned x true < 2 ^ 63 := by
  have hu := as_unsigned_exact x hw h0 h16
  have hv : mval x.kigits * (10:ℚ) ^ x.exp < 2 ^ 63 := by
    have h1 : mval x.kigits < 1 := mval_lt_one hw
    have h2 : (10:ℚ) ^ x.exp ≤ (10:ℚ) ^ (16:ℤ) :=
      zpow_le_zpow_right₀ (by norm_num) h16
    have h3 : (0:ℚ) < (10:ℚ) ^ x.exp := zpow_pos (by norm_num) _
    have h4 : mval x.kigits * (10:ℚ) ^ x.exp < (10:ℚ) ^ (16:ℤ) := by
      calc mval x.kigits * (10:ℚ) ^ x.exp < 1 * (10:ℚ) ^ x.exp :=
            mul_lt_mul_of_pos_right h1 h3
      _ = (10:ℚ) ^ x.exp := by ring
      _ ≤ (10:ℚ) ^ (16:ℤ) := h2
    have h5 : ((10:ℚ) ^ (16:ℤ)) < 2 ^ 63 := by norm_num
    linarith
  have hfl : ⌊mval x.kigits * (10:ℚ) ^ x.exp⌋ < 2 ^ 63 := by
    have := Int.floor_le (mval x.kigits * (10:ℚ) ^ x.exp)
    have h6 : (⌊mval x.kigits * (10:ℚ) ^ x.exp⌋ : ℚ) < 2 ^ 63 := by linarith
    exact_mod_cast h6
  omega

theorem as_integer_exact (x : Dec) (hw : wf x) (h0 : 0 ≤ x.exp)
    (h16 : x.exp ≤ 16) :
    as_integer x = (if x.neg then -1 else 1) * ⌊|value x|⌋ := by
  have hu := as_unsigned_exact x hw h0 h16
  have hlt := as_unsigned_lt_2p63 x hw h0 h16
  rw [abs_value]
  have htoI : toI64 (as_unsigned x true) = (as_unsigned x true : ℤ) := by
    simp only [toI64]
    rw [if_pos hlt]
  cases hxn : x.neg
  · simp [as_integer, hxn, htoI, hu]
  · have hc : (as_unsigned x true : ℤ) < 2 ^ 63 := by exact_mod_cast hlt
    have hnn : (0:ℤ) ≤ (as_unsigned x true : ℤ) := by positivity
    have h1 : (0:ℤ) ≤ -(as_unsigned x true : ℤ) + 2 ^ 63 := by omega
    have h2 : -(as_unsigned x true : ℤ) + 2 ^ 63 < (U64 : ℤ) := by
      have hU : (U64 : ℤ) = 2 ^ 64 := by norm_num [U64]
      omega
    have h3 : (-(as_unsigned x true : ℤ) + 2 ^ 63).emod (U64 : ℤ) =
        -(as_unsigned x true : ℤ) + 2 ^ 63 := Int.emod_eq_of_lt h1 h2
    simp only [as_integer, hxn]
    rw [if_pos trivial, htoI, negI64, h3, hu, if_pos trivial]
    ring

theorem as_unsigned_saturates (x : Dec) (h64 : 64 ≤ x.exp) :
    as_unsigned x true = maxU64 := by
  have hxp : 64 ≤ x.exp.toNat := by omega
  have hlt2 : x.exp.toNat < 2 ^ (x.exp.toNat + 1) := by
    have h := Nat.lt_two_pow x.exp.toNat
    have h2 : (2:ℕ) ^ x.exp.toNat ≤ 2 ^ (x.exp.toNat + 1) :=
      Nat.pow_le_pow_right (by norm_num) (Nat.le_succ _)
    omega
  have hpow : powLoop (x.exp.toNat + 1) x.exp.toNat 1 10 = 0 := by
    rw [powLoop_spec (x.exp.toNat + 1) x.exp.toNat 1 10 hlt2 (by norm_num [U64])]
    rw [one_mul]
    have hdvd : U64 ∣ 10 ^ x.exp.toNat := by
      have h10 : (10:ℕ) ^ 64 = 2 ^ 64 * 5 ^ 64 := by
        rw [show (10:ℕ) = 2 * 5 from rfl, mul_pow]
      have h1 : (10:ℕ) ^ 64 ∣ 10 ^ x.exp.toNat := pow_dvd_pow 10 hxp
      exact dvd_trans ⟨5 ^ 64, h10⟩ h1
    obtain ⟨c, hc⟩ := hdvd
    rw [hc, Nat.mul_mod_right]
  simp only [as_unsigned]
  rw [if_neg (by simp; omega)]
  rw [hpow]
  simp

theorem as_unsigned_neg_default (x : Dec) (hn : x.neg = true) : as_unsigned x = 0 := by
  by_cases he : x.exp < 0
  · simp [as_unsigned, he]
  · simp [as_unsigned, he, hn]

/-- C8 (amended): `decimal::as_unsigned` computes `⌊|x|⌋` only when the
magnitude flag is set or `x` is non-negative — with the default flag any
negative `x` yields 0; the floor is exact whenever the exponent is at
most 16 (so no 64-bit intermediate can overflow), and saturation to the
all-bits-set maximum is guaranteed once the exponent reaches 64 (then
`10^exp ≡ 0 (mod 2^64)` and the `!pow` test fires); `decimal::as_integer`
applies `x`'s sign to the floored magnitude. -/
theorem C8_conversion_amended :
    (∀ x : Dec, x.neg = true → as_unsigned x = 0) ∧
    (∀ x : Dec, wf x → 0 ≤ x.exp → x.exp ≤ 16 →
      (as_unsigned x true : ℤ) = ⌊|value x|⌋) ∧
    (∀ x : Dec, 64 ≤ x.exp → as_unsigned x true = maxU64) ∧
    (∀ x : Dec, wf x → 0 ≤ x.exp → x.exp ≤ 16 →
      as_integer x = (if x.neg then -1 else 1) * ⌊|value x|⌋) :=
  ⟨fun x hn => as_unsigned_neg_default x hn,
   fun x hw h0 h16 => by rw [abs_value]; exact as_unsigned_exact x hw h0 h16,
   fun x h64 => as_unsigned_saturates x h64,
   fun x hw h0 h16 => as_integer_exact x hw h0 h16⟩

/-- Witness for C8: `-25` yields 0 by default; `25.0` converts exactly;
`0.1 * 10^70` saturates; `as_integer` of `-25` applies the sign. -/
theorem C8_conversion_witness :
    as_unsigned ⟨true, 2, [250]⟩ = 0 ∧
    (as_unsigned ⟨false, 2, [250]⟩ true : ℤ) = ⌊|value ⟨false, 2, [250]⟩|⌋ ∧
    as_unsigned ⟨false, 70, [100]⟩ true = maxU64 ∧
    as_integer ⟨true, 2, [250]⟩ =
      (if (⟨true, 2, [250]⟩ : Dec).neg then -1 else 1) *
        ⌊|value ⟨true, 2, [250]⟩|⌋ :=
  ⟨C8_conversion_amended.1 ⟨true, 2, [250]⟩ (by decide),
   C8_conversion_amended.2.1 ⟨false, 2, [250]⟩ (by decide) (by decide)
     (by decide),
   C8_conversion_amended.2.2.1 ⟨false, 70, [100]⟩ (by decide),
   C8_conversion_amended.2.2.2 ⟨true, 2, [250]⟩ (by decide) (by decide)
     (by decide)⟩


/-!
## The value computed by the multiplication (claim C3)
-/

theorem ival_nil : ival [] = 0 := rfl

theorem ival_cons (d : ℕ) (t : List ℕ) :
    ival (d :: t) = d * 1000 ^ t.length + ival t := rfl

theorem ival_lt {l : List ℕ} (h : wfL l) : ival l < 1000 ^ l.length := by
  induction l with
  | nil => norm_num [ival_nil]
  | cons d t ih =>
    obtain ⟨hd, hwt⟩ := wfL_cons h
    have ht := ih hwt
    rw [ival_cons, List.length_cons, pow_succ]
    calc d * 1000 ^ t.length + ival t < d * 1000 ^ t.length + 1000 ^ t.length := by
          omega
    _ = (d + 1) * 1000 ^ t.length := by ring
    _ ≤ 1000 * 1000 ^ t.length := Nat.mul_le_mul_right _ (by omega)
    _ = 1000 ^ t.length * 1000 := by ring

theorem mval_eq_ival (l : List ℕ) :
    mval l = (ival l : ℚ) / 1000 ^ l.length := by
  induction l with
  | nil => simp [mval_nil, ival_nil]
  | cons d t ih =>
    rw [mval_cons, ival_cons, ih, List.length_cons]
    push_cast
    rw [pow_succ]
    field_simp

theorem ival_set (l : List ℕ) : ∀ (i : ℕ) (v : ℕ), i < l.length →
    ival (l.set i v) + l.getD i 0 * 1000 ^ (l.length - 1 - i) =
      ival l + v * 1000 ^ (l.length - 1 - i) := by
  induction l with
  | nil => intro i v h; simp at h
  | cons d t ih =>
    intro i v h
    cases i with
    | zero =>
      simp only [List.set_cons_zero, ival_cons, List.getD_cons_zero,
        List.length_cons, Nat.add_sub_cancel, Nat.sub_zero]
      ring
    | succ i' =>
      simp only [List.set_cons_succ, ival_cons, List.getD_cons_succ,
        List.length_cons, List.length_set]
      have hi' : i' < t.length := by simpa using h
      have := ih i' v hi'
      have hlen : t.length + 1 - 1 - (i' + 1) = t.length - 1 - i' := by omega
      rw [hlen]
      omega

theorem mulCarry_spec : ∀ (ri : ℕ) (rb : List ℕ) (rk : ℕ), ri < rb.length →
    (mulCarry rb ri rk).1.length = rb.length ∧
    (wfL rb → wfL (mulCarry rb ri rk).1) ∧
    ival (mulCarry rb ri rk).1 + (mulCarry rb ri rk).2 * 1000 ^ rb.length =
      ival rb + rk * 1000 ^ (rb.length - 1 - ri)
  | 0, rb, rk, hlen => by
    by_cases h0 : rk = 0
    · subst h0
      simp [mulCarry]
    · simp only [mulCarry, if_neg h0]
      refine ⟨by simp, ?_, ?_⟩
      · intro hw
        intro a ha
        rcases List.mem_or_eq_of_mem_set ha with h | h
        · exact hw a h
        · subst h; exact Nat.mod_lt _ (by norm_num)
      · have hset := ival_set rb 0 ((rk + rb.getD 0 0) % 1000) hlen
        have hdm := Nat.div_add_mod (rk + rb.getD 0 0) 1000
        have hpow : 1000 ^ rb.length = 1000 * 1000 ^ (rb.length - 1) := by
          rw [← pow_succ']
          congr 1
          omega
        simp only [Nat.sub_zero] at hset ⊢
        rw [hpow]
        zify at hset hdm ⊢
        linear_combination hset + (1000 : ℤ) ^ (rb.length - 1) * hdm
  | ri' + 1, rb, rk, hlen => by
    by_cases h0 : rk = 0
    · subst h0
      simp [mulCarry]
    · simp only [mulCarry, if_neg h0]
      have hlen' : ri' < (rb.set (ri' + 1) ((rk + rb.getD (ri' + 1) 0) % 1000)).length := by
        simp
        omega
      obtain ⟨ihl, ihw, ihv⟩ := mulCarry_spec ri'
        (rb.set (ri' + 1) ((rk + rb.getD (ri' + 1) 0) % 1000))
        ((rk + rb.getD (ri' + 1) 0) / 1000) hlen'
      refine ⟨by rw [ihl]; simp, ?_, ?_⟩
      · intro hw
        apply ihw
        intro a ha
        rcases List.mem_or_eq_of_mem_set ha with h | h
        · exact hw a h
        · subst h; exact Nat.mod_lt _ (by norm_num)
      · have hset := ival_set rb (ri' + 1) ((rk + rb.getD (ri' + 1) 0) % 1000) hlen
        have hdm := Nat.div_add_mod (rk + rb.getD (ri' + 1) 0) 1000
        have hsl : (rb.set (ri' + 1) ((rk + rb.getD (ri' + 1) 0) % 1000)).length =
            rb.length := by simp
        rw [hsl] at ihv
        have hpow : 1000 ^ (rb.length - 1 - ri') =
            1000 * 1000 ^ (rb.length - 1 - (ri' + 1)) := by
          rw [← pow_succ']
          congr 1
          omega
        rw [hpow] at ihv
        zify at hset hdm ihv ⊢
        linear_combination ihv + hset +
          (1000 : ℤ) ^ (rb.length - 1 - (ri' + 1)) * hdm

theorem ysumN_of_ge (xk xi rs : ℕ) : ∀ (yt : List ℕ) (yi : ℕ),
    rs ≤ xi + yi → ysumN xk xi rs yt yi = 0
  | [], _, _ => rfl
  | yd :: yt, yi, h => by
    rw [ysumN, if_neg (by omega), ysumN_of_ge xk xi rs yt (yi + 1) (by omega)]

theorem mulYLoop_spec (rs xi xk : ℕ) : ∀ (yt : List ℕ) (yi : ℕ)
    (rb : List ℕ) (carry : ℕ), rb.length = rs → wfL rb →
    (mulYLoop rs xi xk yt yi rb carry).1.length = rs ∧
    wfL (mulYLoop rs xi xk yt yi rb carry).1 ∧
    ival (mulYLoop rs xi xk yt yi rb carry).1 +
      (mulYLoop rs xi xk yt yi rb carry).2 * 1000 ^ rs =
      ival rb + carry * 1000 ^ rs + ysumN xk xi rs yt yi
  | [], yi, rb, carry, hlen, hw => by
    simp [mulYLoop, ysumN, hlen, hw]
  | yd :: yt, yi, rb, carry, hlen, hw => by
    rw [mulYLoop]
    split_ifs with hbr
    · rw [ysumN_of_ge xk xi rs (yd :: yt) yi (by omega)]
      exact ⟨hlen, hw, by simp⟩
    · have hidx : xi + yi < rb.length := by omega
      obtain ⟨hcl, hcw, hcv⟩ := mulCarry_spec (xi + yi) rb (xk * yd) hidx
      obtain ⟨ihl, ihw, ihv⟩ := mulYLoop_spec rs xi xk yt (yi + 1)
        (mulCarry rb (xi + yi) (xk * yd)).1
        (carry + (mulCarry rb (xi + yi) (xk * yd)).2)
        (by rw [hcl, hlen]) (hcw hw)
      refine ⟨ihl, ihw, ?_⟩
      rw [Nat.add_mul] at ihv
      rw [ihv, ysumN, if_pos (by omega)]
      rw [hlen] at hcv
      omega

theorem ival_replicate_zero (n : ℕ) : ival (List.replicate n 0) = 0 := by
  induction n with
  | zero => rfl
  | succ n ih => simp [List.replicate_succ, ival_cons, ih]

theorem mulXLoop_spec (yk : List ℕ) (rs : ℕ) : ∀ (xt : List ℕ) (xi : ℕ)
    (rb : List ℕ) (carry : ℕ), rb.length = rs → wfL rb →
    (mulXLoop yk rs xt xi rb carry).1.length = rs ∧
    wfL (mulXLoop yk rs xt xi rb carry).1 ∧
    ival (mulXLoop yk rs xt xi rb carry).1 +
      (mulXLoop yk rs xt xi rb carry).2 * 1000 ^ rs =
      ival rb + carry * 1000 ^ rs + xsumN yk rs xt xi
  | [], xi, rb, carry, hlen, hw => by
    simp [mulXLoop, xsumN, hlen, hw]
  | xd :: xt, xi, rb, carry, hlen, hw => by
    rw [mulXLoop]
    obtain ⟨hyl, hyw, hyv⟩ := mulYLoop_spec rs xi xd yk 0 rb carry hlen hw
    obtain ⟨ihl, ihw, ihv⟩ := mulXLoop_spec yk rs xt (xi + 1)
      (mulYLoop rs xi xd yk 0 rb carry).1
      (mulYLoop rs xi xd yk 0 rb carry).2 hyl hyw
    refine ⟨ihl, ihw, ?_⟩
    rw [ihv, xsumN]
    omega

theorem ysumN_eq_map (xd xi rs : ℕ) : ∀ (yk : List ℕ) (yi : ℕ),
    ysumN xd xi rs yk yi = ((List.range yk.length).map (fun j =>
      if xi + yi + j < rs then xd * yk.getD j 0 * 1000 ^ (rs - 1 - (xi + yi + j))
      else 0)).sum
  | [], _ => by simp [ysumN]
  | yd :: yt, yi => by
    rw [ysumN, ysumN_eq_map xd xi rs yt (yi + 1), List.length_cons,
      List.range_succ_eq_map, List.map_cons, List.sum_cons, List.map_map]
    have hmap : (List.range yt.length).map ((fun j =>
        if xi + yi + j < rs then
          xd * (yd :: yt).getD j 0 * 1000 ^ (rs - 1 - (xi + yi + j))
        else 0) ∘ Nat.succ) =
        (List.range yt.length).map (fun j =>
          if xi + (yi + 1) + j < rs then
            xd * yt.getD j 0 * 1000 ^ (rs - 1 - (xi + (yi + 1) + j))
          else 0) := by
      apply List.map_congr_left
      intro j _
      simp only [Function.comp_apply, List.getD_cons_succ]
      have h1 : xi + yi + (j + 1) = xi + (yi + 1) + j := by omega
      rw [h1]
    rw [hmap]
    congr 1

theorem xsumN_eq_mulA (yk : List ℕ) (rs : ℕ) : ∀ (xk : List ℕ),
    xsumN yk rs xk 0 = mulA xk yk rs := by
  have key : ∀ (xk : List ℕ) (xi : ℕ),
      xsumN yk rs xk xi = ((List.range xk.length).map (fun i =>
        ((List.range yk.length).map (fun j =>
          if xi + i + j < rs then
            xk.getD i 0 * yk.getD j 0 * 1000 ^ (rs - 1 - (xi + i + j))
          else 0)).sum)).sum := by
    intro xk
    induction xk with
    | nil => intro xi; simp [xsumN]
    | cons xd xt ih =>
      intro xi
      rw [xsumN, ih (xi + 1), List.length_cons, List.range_succ_eq_map,
        List.map_cons, List.sum_cons, List.map_map]
      have hmap : (List.range xt.length).map ((fun i =>
          ((List.range yk.length).map (fun j =>
            if xi + i + j < rs then
              (xd :: xt).getD i 0 * yk.getD j 0 * 1000 ^ (rs - 1 - (xi + i + j))
            else 0)).sum) ∘ Nat.succ) =
          (List.range xt.length).map (fun i =>
            ((List.range yk.length).map (fun j =>
              if xi + 1 + i + j < rs then
                xt.getD i 0 * yk.getD j 0 * 1000 ^ (rs - 1 - (xi + 1 + i + j))
              else 0)).sum) := by
        apply List.map_congr_left
        intro i _
        simp only [Function.comp_apply, List.getD_cons_succ]
        apply congrArg
        apply List.map_congr_left
        intro j _
        have h1 : xi + (i + 1) + j = xi + 1 + i + j := by omega
        rw [h1]
      rw [hmap]
      congr 1
      rw [ysumN_eq_map]
      apply congrArg
      apply List.map_congr_left
      intro j _
      simp
  intro xk
  rw [key xk 0, mulA]
  apply congrArg
  apply List.map_congr_left
  intro i _
  apply congrArg
  apply List.map_congr_left
  intro j _
  have h1 : 0 + i + j = i + j := by omega
  rw [h1]

theorem getD_drop (l : List ℕ) : ∀ i : ℕ, l.getD i 0 = (l.drop i).headD 0 := by
  induction l with
  | nil => intro i; simp
  | cons d t ih =>
    intro i
    cases i with
    | zero => simp
    | succ i' => simpa using ih i'

theorem take_set_ge : ∀ (l : List ℕ) (n i : ℕ) (v : ℕ), n ≤ i →
    (l.set i v).take n = l.take n
  | [], _, _, _, _ => by simp
  | d :: t, 0, i, v, _ => by simp
  | d :: t, n + 1, 0, v, h => by omega
  | d :: t, n + 1, i + 1, v, h => by
    simp only [List.set_cons_succ, List.take_succ_cons]
    rw [take_set_ge t n i v (by omega)]

theorem drop_set_lt : ∀ (l : List ℕ) (n i : ℕ) (v : ℕ), i < n →
    (l.set i v).drop n = l.drop n
  | [], _, _, _, _ => by simp
  | d :: t, 0, i, v, h => by omega
  | d :: t, n + 1, 0, v, _ => by simp
  | d :: t, n + 1, i + 1, v, h => by
    simp only [List.set_cons_succ, List.drop_succ_cons]
    rw [drop_set_lt t n i v (by omega)]

theorem getD_set_self : ∀ (l : List ℕ) (i : ℕ) (v : ℕ), i < l.length →
    (l.set i v).getD i 0 = v
  | [], _, _, h => by simp at h
  | d :: t, 0, v, _ => by simp
  | d :: t, i + 1, v, h => by
    simp only [List.set_cons_succ, List.getD_cons_succ]
    exact getD_set_self t i v (by simpa using h)

theorem wfL_getD_lt {l : List ℕ} (h : wfL l) (i : ℕ) : l.getD i 0 < 1000 := by
  by_cases hi : i < l.length
  · have : l.getD i 0 ∈ l := by
      rw [List.getD_eq_getElem l 0 hi]
      exact List.getElem_mem hi
    exact h _ this
  · rw [List.getD_eq_default l 0 (by omega)]
    norm_num

theorem wfL_take {l : List ℕ} (h : wfL l) (n : ℕ) : wfL (l.take n) :=
  fun d hd => h d (List.take_subset n l hd)

theorem ival_take_succ : ∀ (l : List ℕ) (ri : ℕ), ri < l.length →
    ival (l.take (ri + 1)) = ival (l.take ri) * 1000 + l.getD ri 0
  | [], ri, h => by simp at h
  | d :: t, 0, _ => by simp [ival_cons, ival_nil]
  | d :: t, ri + 1, h => by
    have hri : ri < t.length := by simpa using h
    simp only [List.take_succ_cons, ival_cons, List.getD_cons_succ]
    rw [ival_take_succ t ri hri]
    have hl1 : (t.take (ri + 1)).length = ri + 1 := by
      rw [List.length_take]
      omega
    have hl2 : (t.take ri).length = ri := by
      rw [List.length_take]
      omega
    rw [hl1, hl2, pow_succ]
    ring

theorem drop_succ_congr {l l' : List ℕ} {n : ℕ} (h : l.drop n = l'.drop n) :
    l.drop (n + 1) = l'.drop (n + 1) := by
  have h2 := congrArg (List.drop 1) h
  rw [List.drop_drop, List.drop_drop] at h2
  simpa [Nat.add_comm] using h2

theorem roundUpChain_spec : ∀ (ri : ℕ) (rb : List ℕ), ri ≤ rb.length →
    wfL rb →
    (roundUpChain rb ri).1.length = rb.length ∧
    wfL (roundUpChain rb ri).1 ∧
    (roundUpChain rb ri).1.drop ri = rb.drop ri ∧
    ival ((roundUpChain rb ri).1.take ri) +
      (if (roundUpChain rb ri).2 then 1000 ^ ri else 0) =
      ival (rb.take ri) + 1
  | 0, rb, _, hw => ⟨rfl, hw, rfl, by simp [roundUpChain, ival_nil]⟩
  | ri + 1, rb, hle, hw => by
    have hri : ri < rb.length := by omega
    have hgd : rb.getD ri 0 < 1000 := wfL_getD_lt hw ri
    simp only [roundUpChain]
    by_cases hcase : rb.getD ri 0 + 1 ≥ 1000
    · -- the digit was 999 and wraps to 0
      have h999 : rb.getD ri 0 = 999 := by omega
      have hmod : (rb.getD ri 0 + 1) % 1000 = 0 := by omega
      simp only [if_pos hcase]
      rw [hmod]
      have hwset : wfL (rb.set ri 0) := by
        intro a ha
        rcases List.mem_or_eq_of_mem_set ha with h | h
        · exact hw a h
        · omega
      have hlset : (rb.set ri 0).length = rb.length := by simp
      obtain ⟨ihl, ihw, ihd, ihv⟩ := roundUpChain_spec ri (rb.set ri 0)
        (by rw [hlset]; omega) hwset
      rw [hlset] at ihl
      rw [take_set_ge rb ri ri 0 le_rfl] at ihv
      refine ⟨ihl, ihw, ?_, ?_⟩
      · have hstep := drop_succ_congr ihd
        rw [hstep, drop_set_lt rb (ri + 1) ri 0 (by omega)]
      · have hget : (roundUpChain (rb.set ri 0) ri).1.getD ri 0 = 0 := by
          rw [getD_drop, ihd, ← getD_drop, getD_set_self rb ri 0 hri]
        have hlen1 : ri < (roundUpChain (rb.set ri 0) ri).1.length := by
          rw [ihl]
          omega
        rw [ival_take_succ _ ri hlen1, hget, ival_take_succ rb ri hri]
        have hpow : (1000:ℕ) ^ (ri + 1) = 1000 ^ ri * 1000 := pow_succ 1000 ri
        cases hov : (roundUpChain (rb.set ri 0) ri).2 with
        | false =>
          rw [hov, if_neg (by decide)] at ihv
          rw [if_neg (by decide)]
          omega
        | true =>
          rw [hov, if_pos rfl] at ihv
          rw [if_pos rfl, hpow]
          omega
    · -- no cascade: just store the incremented digit
      simp only [if_neg hcase]
      refine ⟨by simp, ?_, drop_set_lt rb (ri + 1) ri _ (by omega), ?_⟩
      · intro a ha
        rcases List.mem_or_eq_of_mem_set ha with h | h
        · exact hw a h
        · omega
      · have hlen1 : ri < (rb.set ri (rb.getD ri 0 + 1)).length := by
          simpa using hri
        rw [if_neg (by decide)]
        rw [ival_take_succ _ ri hlen1, getD_set_self rb ri _ hri,
          take_set_ge rb ri ri _ le_rfl, ival_take_succ rb ri hri]
        omega

theorem mulCarryLoop_zero (rs fuel : ℕ) (rb : List ℕ) (re : ℤ) :
    mulCarryLoop rs (fuel + 1) rb 0 re = (rb, re) := by
  simp [mulCarryLoop]

theorem wfL_cons_intro {d : ℕ} {t : List ℕ} (hd : d < 1000) (ht : wfL t) :
    wfL (d :: t) := by
  intro a ha
  rcases List.mem_cons.mp ha with h | h
  · omega
  · exact ht a h

theorem mulCarryLoop_once (rs c : ℕ) (rb : List ℕ) (re : ℤ)
    (hrs : 1 ≤ rs) (hlen : rb.length = rs) (hw : wfL rb)
    (hc1 : 1 ≤ c) (hc : c ≤ 998) :
    (mulCarryLoop rs (c + 1) rb c re).2 = re + 3 ∧
    (mulCarryLoop rs (c + 1) rb c re).1.length = rs ∧
    wfL (mulCarryLoop rs (c + 1) rb c re).1 ∧
    ival (mulCarryLoop rs (c + 1) rb c re).1 =
      c * 1000 ^ (rs - 1) + (ival rb + 500) / 1000 := by
  have hsplit : ival rb = ival (rb.take (rs - 1)) * 1000 + rb.getD (rs - 1) 0 := by
    have h1 : ival (rb.take (rs - 1 + 1)) =
        ival (rb.take (rs - 1)) * 1000 + rb.getD (rs - 1) 0 :=
      ival_take_succ rb (rs - 1) (by omega)
    have h2 : rb.take (rs - 1 + 1) = rb := by
      apply List.take_of_length_le
      omega
    rw [h2] at h1
    exact h1
  have hlast : rb.getD (rs - 1) 0 < 1000 := wfL_getD_lt hw _
  obtain ⟨f, hf⟩ : ∃ f, c = f + 1 := ⟨c - 1, by omega⟩
  simp only [mulCarryLoop, if_neg (by omega : ¬c = 0)]
  by_cases hov : rb.getD (rs - 1) 0 ≥ 500
  · -- round the dropped kigit half-up
    rw [if_pos (decide_eq_true hov)]
    obtain ⟨rcl, rcw, rcd, rcv⟩ := roundUpChain_spec (rs - 1) rb (by omega) hw
    cases hov2 : (roundUpChain rb (rs - 1)).2 with
    | false =>
      rw [hov2, if_neg (by decide)] at rcv
      simp only [if_neg (by decide : ¬false = true)]
      have hcm : c % 1000 = c := Nat.mod_eq_of_lt (by omega)
      have hcd : c / 1000 = 0 := Nat.div_eq_of_lt (by omega)
      rw [hcm, hcd, hf, mulCarryLoop_zero]
      refine ⟨rfl, ?_, ?_, ?_⟩
      · simp only [List.length_cons, List.length_take, rcl]
        omega
      · exact wfL_cons_intro (by omega) (wfL_take rcw _)
      · rw [ival_cons]
        have hlt : (List.take (rs - 1) (roundUpChain rb (rs - 1)).1).length =
            rs - 1 := by
          rw [List.length_take, rcl]
          omega
        rw [hlt]
        omega
    | true =>
      rw [hov2, if_pos rfl] at rcv
      simp only [if_pos (rfl : true = true), if_pos trivial]
      have hcm : (c + 1) % 1000 = c + 1 := Nat.mod_eq_of_lt (by omega)
      have hcd : (c + 1) / 1000 = 0 := Nat.div_eq_of_lt (by omega)
      rw [hcm, hcd, hf, mulCarryLoop_zero]
      refine ⟨rfl, ?_, ?_, ?_⟩
      · simp only [List.length_cons, List.length_take, rcl]
        omega
      · exact wfL_cons_intro (by omega) (wfL_take rcw _)
      · rw [ival_cons]
        have hlt : (List.take (rs - 1) (roundUpChain rb (rs - 1)).1).length =
            rs - 1 := by
          rw [List.length_take, rcl]
          omega
        rw [hlt, ← hf]
        have hkey : ival (List.take (rs - 1) (roundUpChain rb (rs - 1)).1) +
            1000 ^ (rs - 1) = ival (rb.take (rs - 1)) + 1 := rcv
        have hexp : (c + 1) * 1000 ^ (rs - 1) +
            ival (List.take (rs - 1) (roundUpChain rb (rs - 1)).1) =
            c * 1000 ^ (rs - 1) +
              (ival (List.take (rs - 1) (roundUpChain rb (rs - 1)).1) +
                1000 ^ (rs - 1)) := by
          ring
        rw [hexp, hkey]
        omega
  · -- the dropped kigit is below 500: plain truncation
    have hnd : ¬(decide (rb.getD (rs - 1) 0 ≥ 500) = true) := by simpa using hov
    rw [if_neg hnd]
    simp only [if_neg (by decide : ¬false = true)]
    have hcm : c % 1000 = c := Nat.mod_eq_of_lt (by omega)
    have hcd : c / 1000 = 0 := Nat.div_eq_of_lt (by omega)
    rw [hcm, hcd, hf, mulCarryLoop_zero]
    refine ⟨rfl, ?_, ?_, ?_⟩
    · simp only [List.length_cons, List.length_take, hlen]
      omega
    · exact wfL_cons_intro (by omega) (wfL_take hw _)
    · rw [ival_cons]
      have hlt : (List.take (rs - 1) rb).length = rs - 1 := by
        rw [List.length_take, hlen]
        omega
      rw [hlt, ← hf]
      omega

theorem dropLead_mval : ∀ l : List ℕ,
    mval (dropLeadZeros l) = mval l * 1000 ^ leadZeros l
  | [] => by simp [dropLeadZeros, leadZeros, mval_nil]
  | d :: t => by
    by_cases hd : d = 0
    · subst hd
      have h1 : dropLeadZeros (0 :: t) = dropLeadZeros t := by
        simp [dropLeadZeros, List.dropWhile_cons]
      have h2 : leadZeros (0 :: t) = leadZeros t + 1 := by
        simp [leadZeros, List.takeWhile_cons]
      rw [h1, h2, dropLead_mval t, mval_cons]
      push_cast
      rw [pow_succ]
      ring
    · have h1 : dropLeadZeros (d :: t) = d :: t := by
        simp [dropLeadZeros, List.dropWhile_cons, hd]
      have h2 : leadZeros (d :: t) = 0 := by
        simp [leadZeros, List.takeWhile_cons, hd]
      rw [h1, h2, pow_zero, mul_one]

theorem shiftLeftDigits_cons (h d : ℕ) (t : List ℕ) :
    shiftLeftDigits h (d :: t) =
      ((d * h + t.headD 0 / (1000 / h)) % 1000) :: shiftLeftDigits h t := by
  cases t <;> simp [shiftLeftDigits]

theorem shiftLeft_mval (h : ℕ) (hdvd : h ∣ 1000) (hpos : 0 < h) :
    ∀ l : List ℕ, wfL l →
      mval (shiftLeftDigits h l) =
        mval l * h - ((l.headD 0 / (1000 / h) : ℕ) : ℚ) := by
  have hlm : 1000 / h * h = 1000 := Nat.div_mul_cancel hdvd
  have hle : h ≤ 1000 := Nat.le_of_dvd (by norm_num) hdvd
  have hlmpos : 0 < 1000 / h := by
    rcases hdvd with ⟨k, hk⟩
    have : k ≤ 1000 := by nlinarith
    have hk0 : k ≠ 0 := by rintro rfl; omega
    rw [hk]
    rw [Nat.mul_div_cancel_left _ hpos]
    omega
  intro l
  induction l with
  | nil => intro _; simp [shiftLeftDigits, mval_nil]
  | cons d t ih =>
    intro hw
    obtain ⟨hd, hwt⟩ := wfL_cons hw
    have ht0 : t.headD 0 < 1000 := by
      cases t with
      | nil => simp
      | cons e t' => simpa using (wfL_cons hwt).1
    have ha : t.headD 0 / (1000 / h) < h := by
      rw [Nat.div_lt_iff_lt_mul hlmpos]
      calc t.headD 0 < 1000 := ht0
      _ = h * (1000 / h) := by rw [Nat.mul_div_cancel' hdvd]
      _ = h * (1000 / h) := rfl
    have hq := Nat.div_add_mod d (1000 / h)
    have hdh : d * h = 1000 * (d / (1000 / h)) + d % (1000 / h) * h := by
      calc d * h = (1000 / h * (d / (1000 / h)) + d % (1000 / h)) * h := by
            rw [hq]
      _ = (1000 / h * h) * (d / (1000 / h)) + d % (1000 / h) * h := by ring
      _ = 1000 * (d / (1000 / h)) + d % (1000 / h) * h := by rw [hlm]
    have hrlt : d % (1000 / h) * h + t.headD 0 / (1000 / h) < 1000 := by
      have h1 : d % (1000 / h) < 1000 / h := Nat.mod_lt d hlmpos
      have h2 : d % (1000 / h) * h ≤ (1000 / h - 1) * h :=
        Nat.mul_le_mul_right h (by omega)
      have h3 : (1000 / h - 1) * h = 1000 - h := by
        rw [Nat.sub_mul, one_mul, hlm]
      omega
    have hmod : (d * h + t.headD 0 / (1000 / h)) % 1000 =
        d % (1000 / h) * h + t.headD 0 / (1000 / h) := by
      rw [hdh]
      rw [show 1000 * (d / (1000 / h)) + d % (1000 / h) * h +
          t.headD 0 / (1000 / h) =
          d % (1000 / h) * h + t.headD 0 / (1000 / h) +
            1000 * (d / (1000 / h)) by ring]
      rw [Nat.add_mul_mod_self_left]
      exact Nat.mod_eq_of_lt hrlt
    rw [shiftLeftDigits_cons, mval_cons, mval_cons, hmod, ih hwt,
      List.headD_cons]
    have hdhQ : (d : ℚ) * h = 1000 * ((d / (1000 / h) : ℕ) : ℚ) +
        ((d % (1000 / h) : ℕ) : ℚ) * h := by exact_mod_cast hdh
    push_cast at hdhQ ⊢
    linear_combination (-1 / 1000 : ℚ) * hdhQ

theorem wfL_dropLead {l : List ℕ} (hw : wfL l) : wfL (dropLeadZeros l) :=
  fun d hd => hw d (List.dropWhile_subset _ hd)

theorem ten_zpow_combine (a b c : ℤ) :
    (10:ℚ) ^ a * (10:ℚ) ^ b * (10:ℚ) ^ c = (10:ℚ) ^ (a + b + c) := by
  rw [← zpow_add₀ (by norm_num : (10:ℚ) ≠ 0),
    ← zpow_add₀ (by norm_num : (10:ℚ) ≠ 0)]

theorem thousand_pow_zpow (zk : ℕ) :
    ((1000:ℚ)) ^ zk = (10:ℚ) ^ ((3 * zk : ℕ) : ℤ) := by
  rw [zpow_natCast, pow_mul]
  norm_num

theorem tail_value (ty : Bool) (re1 : ℤ) (rb1 : List ℕ) (hw : wfL rb1) :
    value ⟨ty,
      (if dropLeadZeros rb1 ≠ [] ∧ (dropLeadZeros rb1).headD 0 < 100 then
        re1 - 3 * (leadZeros rb1 : ℤ) -
          (1 + (if (dropLeadZeros rb1).headD 0 < 10 then 1 else 0))
      else re1 - 3 * (leadZeros rb1 : ℤ)),
      stripTrailingZeros
        (if dropLeadZeros rb1 ≠ [] ∧ (dropLeadZeros rb1).headD 0 < 100 then
          shiftLeftDigits (if (dropLeadZeros rb1).headD 0 < 10 then 100 else 10)
            (dropLeadZeros rb1)
        else dropLeadZeros rb1)⟩ =
    (if ty then (-1:ℚ) else 1) * mval rb1 * (10:ℚ) ^ re1 := by
  have hwd : wfL (dropLeadZeros rb1) := wfL_dropLead hw
  by_cases hsh : dropLeadZeros rb1 ≠ [] ∧ (dropLeadZeros rb1).headD 0 < 100
  · by_cases h10 : (dropLeadZeros rb1).headD 0 < 10
    · rw [if_pos hsh, if_pos hsh, if_pos h10, if_pos h10, value_mk,
        mval_stripTrailingZeros,
        shiftLeft_mval 100 (by norm_num) (by norm_num) _ hwd]
      have hz : (dropLeadZeros rb1).headD 0 / (1000 / 100) = 0 :=
        Nat.div_eq_of_lt (by omega)
      rw [hz, dropLead_mval]
      have key : ((1000:ℚ)) ^ (leadZeros rb1) * ((100 : ℕ) : ℚ) *
          (10:ℚ) ^ (re1 - 3 * (leadZeros rb1 : ℤ) - (1 + 1)) =
          (10:ℚ) ^ re1 := by
        rw [thousand_pow_zpow]
        rw [show ((100 : ℕ) : ℚ) = (10:ℚ) ^ (2:ℤ) by norm_num]
        rw [ten_zpow_combine]
        congr 1
        push_cast
        ring
      push_cast at key ⊢
      linear_combination ((if ty then (-1:ℚ) else 1) * mval rb1) * key
    · rw [if_pos hsh, if_pos hsh, if_neg h10, if_neg h10, value_mk,
        mval_stripTrailingZeros,
        shiftLeft_mval 10 (by norm_num) (by norm_num) _ hwd]
      have hz : (dropLeadZeros rb1).headD 0 / (1000 / 10) = 0 :=
        Nat.div_eq_of_lt (by omega)
      rw [hz, dropLead_mval]
      have key : ((1000:ℚ)) ^ (leadZeros rb1) * ((10 : ℕ) : ℚ) *
          (10:ℚ) ^ (re1 - 3 * (leadZeros rb1 : ℤ) - (1 + 0)) =
          (10:ℚ) ^ re1 := by
        rw [thousand_pow_zpow]
        rw [show ((10 : ℕ) : ℚ) = (10:ℚ) ^ (1:ℤ) by norm_num]
        rw [ten_zpow_combine]
        congr 1
        push_cast
        ring
      push_cast at key ⊢
      linear_combination ((if ty then (-1:ℚ) else 1) * mval rb1) * key
  · rw [if_neg hsh, if_neg hsh, value_mk, mval_stripTrailingZeros,
      dropLead_mval]
    have key : ((1000:ℚ)) ^ (leadZeros rb1) *
        (10:ℚ) ^ (re1 - 3 * (leadZeros rb1 : ℤ)) = (10:ℚ) ^ re1 := by
      rw [thousand_pow_zpow, ← zpow_add₀ (by norm_num : (10:ℚ) ≠ 0)]
      congr 1
      push_cast
      ring
    push_cast at key ⊢
    linear_combination ((if ty then (-1:ℚ) else 1) * mval rb1) * key

theorem wfL_replicate_zero (n : ℕ) : wfL (List.replicate n 0) := by
  intro d hd
  have := List.eq_of_mem_replicate hd
  omega

/-- C3 (amended): `decimal::mul` accumulates the cross products that land
below the result width `rs = min(ceil(prec/3)-kigits, xs + ys + 1)` with
base-1000 carries, starting from exponent `xe + ye - 3`; when the
accumulated product fits in `rs` kigits the value is exact (truncated at
`rs` kigits), and when a carry remains above the top the dropped kigit
is rounded half-up into the retained mantissa (hypothesis: the carry
stays below 999 so a single renormalisation pass runs); the sign tag is
negative exactly when the operands' sign tags differ. -/
theorem C3_mul_value_formula (prec : ℕ) (x y : Dec) (hp : 1 ≤ prec)
    (hA : mulA x.kigits y.kigits (mulRS prec x y) <
      999 * 1000 ^ mulRS prec x y) :
    value (mul prec x y) =
      (if x.neg ≠ y.neg then (-1:ℚ) else 1) *
        (if mulA x.kigits y.kigits (mulRS prec x y) <
            1000 ^ mulRS prec x y then
          (mulA x.kigits y.kigits (mulRS prec x y) : ℚ) /
            1000 ^ mulRS prec x y * (10:ℚ) ^ (x.exp + y.exp - 3)
        else
          (mulRound (mulA x.kigits y.kigits (mulRS prec x y))
              (mulRS prec x y) : ℚ) /
            1000 ^ mulRS prec x y * (10:ℚ) ^ (x.exp + y.exp)) := by
  have hrs1 : 1 ≤ mulRS prec x y := by
    rw [mulRS]
    refine le_min ?_ (by omega)
    unfold psOf
    omega
  have hWpos : 0 < 1000 ^ mulRS prec x y := pow_pos (by norm_num) _
  obtain ⟨hal, haw, hav⟩ := mulXLoop_spec y.kigits (mulRS prec x y)
    x.kigits 0 (List.replicate (mulRS prec x y) 0) 0
    (List.length_replicate _ _) (wfL_replicate_zero _)
  rw [ival_replicate_zero, xsumN_eq_mulA, Nat.zero_mul, Nat.add_zero,
    Nat.zero_add] at hav
  have hbound : ival (mulXLoop y.kigits (mulRS prec x y) x.kigits 0
      (List.replicate (mulRS prec x y) 0) 0).1 < 1000 ^ mulRS prec x y := by
    have := ival_lt haw
    rwa [hal] at this
  have hcdiv : (mulXLoop y.kigits (mulRS prec x y) x.kigits 0
      (List.replicate (mulRS prec x y) 0) 0).2 =
      mulA x.kigits y.kigits (mulRS prec x y) / 1000 ^ mulRS prec x y := by
    rw [← hav, Nat.add_mul_div_right _ _ hWpos, Nat.div_eq_of_lt hbound,
      Nat.zero_add]
  have hcmod : ival (mulXLoop y.kigits (mulRS prec x y) x.kigits 0
      (List.replicate (mulRS prec x y) 0) 0).1 =
      mulA x.kigits y.kigits (mulRS prec x y) % 1000 ^ mulRS prec x y := by
    rw [← hav, Nat.add_mul_mod_self_right, Nat.mod_eq_of_lt hbound]
  have hsign : (if decide (x.neg ≠ y.neg) = true then (-1:ℚ) else 1) =
      (if x.neg ≠ y.neg then (-1:ℚ) else 1) := by
    by_cases h : x.neg = y.neg <;> simp [h]
  simp only [mul]
  rw [show min (psOf prec) (x.kigits.length + y.kigits.length + 1) =
    mulRS prec x y from rfl]
  by_cases hcase : mulA x.kigits y.kigits (mulRS prec x y) <
      1000 ^ mulRS prec x y
  · -- no final carry
    have hc0 : (mulXLoop y.kigits (mulRS prec x y) x.kigits 0
        (List.replicate (mulRS prec x y) 0) 0).2 = 0 := by
      rw [hcdiv]
      exact Nat.div_eq_of_lt hcase
    rw [hc0, mulCarryLoop_zero]
    rw [tail_value _ _ _ haw]
    rw [if_pos hcase]
    rw [mval_eq_ival, hal, hcmod, Nat.mod_eq_of_lt hcase, hsign]
    ring
  · -- one carry pass with half-up rounding
    have hc1 : 1 ≤ (mulXLoop y.kigits (mulRS prec x y) x.kigits 0
        (List.replicate (mulRS prec x y) 0) 0).2 := by
      rw [hcdiv]
      rw [Nat.one_le_div_iff hWpos]
      omega
    have hc998 : (mulXLoop y.kigits (mulRS prec x y) x.kigits 0
        (List.replicate (mulRS prec x y) 0) 0).2 ≤ 998 := by
      rw [hcdiv]
      have h9 : mulA x.kigits y.kigits (mulRS prec x y) /
          1000 ^ mulRS prec x y < 999 :=
        (Nat.div_lt_iff_lt_mul hWpos).mpr hA
      omega
    obtain ⟨hre, hBl, hBw, hBi⟩ := mulCarryLoop_once (mulRS prec x y)
      ((mulXLoop y.kigits (mulRS prec x y) x.kigits 0
        (List.replicate (mulRS prec x y) 0) 0).2)
      ((mulXLoop y.kigits (mulRS prec x y) x.kigits 0
        (List.replicate (mulRS prec x y) 0) 0).1)
      (x.exp + y.exp - 3) hrs1 hal haw hc1 hc998
    rw [tail_value _ _ _ hBw, hre, if_neg hcase]
    rw [mval_eq_ival, hBl, hBi, hcdiv, hcmod]
    rw [show x.exp + y.exp - 3 + 3 = x.exp + y.exp by ring]
    rw [mulRound, hsign]
    ring

/-- Witness for C3: `0.701 * 0.801` at precision 3 satisfies the amended
formula (the product rounds half-up to `0.562`). -/
theorem C3_mul_value_witness :
    value (mul 3 ⟨false, 0, [701]⟩ ⟨false, 0, [801]⟩) =
      (if (false : Bool) ≠ (false : Bool) then (-1:ℚ) else 1) *
        (if mulA [701] [801] (mulRS 3 ⟨false, 0, [701]⟩ ⟨false, 0, [801]⟩) <
            1000 ^ mulRS 3 ⟨false, 0, [701]⟩ ⟨false, 0, [801]⟩ then
          (mulA [701] [801]
              (mulRS 3 ⟨false, 0, [701]⟩ ⟨false, 0, [801]⟩) : ℚ) /
            1000 ^ mulRS 3 ⟨false, 0, [701]⟩ ⟨false, 0, [801]⟩ *
            (10:ℚ) ^ ((0:ℤ) + 0 - 3)
        else
          (mulRound
              (mulA [701] [801] (mulRS 3 ⟨false, 0, [701]⟩ ⟨false, 0, [801]⟩))
              (mulRS 3 ⟨false, 0, [701]⟩ ⟨false, 0, [801]⟩) : ℚ) /
            1000 ^ mulRS 3 ⟨false, 0, [701]⟩ ⟨false, 0, [801]⟩ *
            (10:ℚ) ^ ((0:ℤ) + 0)) :=
  C3_mul_value_formula 3 ⟨false, 0, [701]⟩ ⟨false, 0, [801]⟩ (by decide)
    (by decide)

end DB48X
